import Mathlib

/-!
Verification of the data-aggregation and dynamic-pricing engine of the
LLM-TXT server (`src/server/src/index.ts`).

The TypeScript source is shallowly embedded: pure functions become Lean
functions, JavaScript numbers used for prices become `ℚ` (the price
arithmetic is exact at the magnitudes involved), JavaScript
`number | undefined` fields become `Option Nat`, and `Math.ceil`,
`Math.round`, `Math.max` become `Int.ceil`, `fun x => ⌊x + 1/2⌋`, `max`.
Stateful code (the rate limiter) becomes explicit state passing, and
fallible upstream calls become `Except`-valued parameters.
-/

/-! ## Pricing engine (index.ts lines 36-211)

Mirrors `PricingParams`, `FREE_TIER`, `PRICING`, `isFreeTier`,
`calculateDynamicPrice` and `calculateDynamicPriceWithCastCount`. -/

/-- Embeds the `PricingParams` interface.  `limit?: number` becomes
`Option Nat` (query parsing produces nonnegative integers); the four
boolean flags are produced by the routes as actual booleans. -/
structure PricingParams where
  limit : Option Nat := none
  all : Bool := false
  includeReplies : Bool := false
  includeParents : Bool := false
  includeReactions : Bool := false
deriving DecidableEq, Repr

/-- Embeds `FREE_TIER.maxLimit = 10`. -/
def FREE_TIER_maxLimit : Nat := 10

/-- Embeds the JavaScript idiom `x || d` on `number | undefined`:
`undefined` and `0` are both falsy and give the default. -/
def jsOrDefault (x : Option Nat) (d : Nat) : Nat :=
  match x with
  | none => d
  | some n => if n = 0 then d else n

/-- Embeds `isFreeTier` (index.ts lines 81-91). -/
def isFreeTier (params : PricingParams) : Bool :=
  let limit := jsOrDefault params.limit 50
  if limit > FREE_TIER_maxLimit then false
  else if params.all then false
  else if params.includeReplies then false
  else if params.includeParents then false
  else true

/-- Embeds `PRICING.perApiCall = 0.001`. -/
def PRICING_perApiCall : ℚ := 1/1000

/-- Embeds `PRICING.castsPerPage = 150`. -/
def PRICING_castsPerPage : Nat := 150

/-- Embeds `PRICING.fetchAllDefaultPages = 50`. -/
def PRICING_fetchAllDefaultPages : Nat := 50

/-- Embeds `PRICING.fetchAllBuffer = 5`. -/
def PRICING_fetchAllBuffer : Nat := 5

/-- Embeds `PRICING.parentRatioWithReplies = 0.6`. -/
def PRICING_parentRatioWithReplies : ℚ := 6/10

/-- Embeds `PRICING.parentRatioWithoutReplies = 0.1`. -/
def PRICING_parentRatioWithoutReplies : ℚ := 1/10

/-- Embeds `PRICING.repliesDataMultiplier = 1.25`. -/
def PRICING_repliesDataMultiplier : ℚ := 125/100

/-- Embeds `PRICING.reactionsDataMultiplier = 1.1`. -/
def PRICING_reactionsDataMultiplier : ℚ := 110/100

/-- Embeds JavaScript `Math.round` (round half up). -/
def jsRound (x : ℚ) : ℤ := ⌊x + 1/2⌋

/-- Shared tail of both price functions, from the given `requestedLimit`:
page count, fetch-all buffer, parent-lookup estimate, per-call cost,
stacking data multipliers and the `Math.max(cost, basePrice)` floor
(index.ts lines 111-143 and 177-206; the two source functions repeat
this text verbatim after computing `requestedLimit`). -/
def dynamicCostFrom (params : PricingParams) (requestedLimit : Nat) (basePrice : ℚ) : ℚ :=
  let castPages : ℤ := ⌈(requestedLimit : ℚ) / (PRICING_castsPerPage : ℚ)⌉
  let apiCalls : ℤ := castPages + (if params.all then (PRICING_fetchAllBuffer : ℤ) else 0)
  let apiCalls : ℤ := apiCalls +
    (if params.includeParents then
      ⌈(requestedLimit : ℚ) *
        (if params.includeReplies then PRICING_parentRatioWithReplies
         else PRICING_parentRatioWithoutReplies)⌉
     else 0)
  let cost : ℚ := (apiCalls : ℚ) * PRICING_perApiCall
  let cost := if params.includeReplies then cost * PRICING_repliesDataMultiplier else cost
  let cost := if params.includeReactions then cost * PRICING_reactionsDataMultiplier else cost
  max cost basePrice

/-- Requested limit used by `calculateDynamicPrice` (index.ts line 110):
`params.all ? fetchAllDefaultPages * castsPerPage : (params.limit || 50)`. -/
def requestedLimitDefault (params : PricingParams) : Nat :=
  if params.all then PRICING_fetchAllDefaultPages * PRICING_castsPerPage
  else jsOrDefault params.limit 50

/-- Requested limit used by `calculateDynamicPriceWithCastCount`
(index.ts lines 169-175): for `all` queries the actual cast count
replaces the default estimate when known (`castCount !== null`). -/
def requestedLimitWithCastCount (params : PricingParams) (castCount : Option Nat) : Nat :=
  if params.all then
    match castCount with
    | some n => n
    | none => PRICING_fetchAllDefaultPages * PRICING_castsPerPage
  else jsOrDefault params.limit 50

/-- Price in integral millionths of a dollar:
`Math.round(cost * 1000000)` (index.ts line 146). -/
def calculateDynamicPriceMicros (params : PricingParams) (basePrice : ℚ) : ℤ :=
  jsRound (dynamicCostFrom params (requestedLimitDefault params) basePrice * 1000000)

/-- Price in integral millionths for the cast-count variant
(index.ts line 209). -/
def calculateDynamicPriceWithCastCountMicros
    (params : PricingParams) (castCount : Option Nat) (basePrice : ℚ) : ℤ :=
  jsRound (dynamicCostFrom params (requestedLimitWithCastCount params castCount) basePrice * 1000000)

/-- Strips trailing zero characters. -/
def dropTrailingZeros (cs : List Char) : List Char :=
  (cs.reverse.dropWhile (fun c => c == '0')).reverse

/-- Renders `n` as exactly six decimal digits (zero padded on the left). -/
def sixDigits (n : Nat) : String :=
  let s := toString n
  String.mk (List.replicate (6 - s.length) '0') ++ s

/-- Renders an integral number of millionths the way JavaScript template
interpolation renders the number `m / 1000000` (no exponent at these
magnitudes, shortest decimal expansion, no trailing zeros). -/
def microsToDecimalString (m : ℤ) : String :=
  let sign := if m < 0 then "-" else ""
  let n := m.natAbs
  let intPart := n / 1000000
  let frac := n % 1000000
  if frac = 0 then sign ++ toString intPart
  else sign ++ toString intPart ++ "." ++ String.mk (dropTrailingZeros (sixDigits frac).toList)

/-- Embeds `calculateDynamicPrice` (index.ts lines 101-148). -/
def calculateDynamicPrice (params : PricingParams) (basePrice : ℚ) : String :=
  if isFreeTier params then "$0"
  else "$" ++ microsToDecimalString (calculateDynamicPriceMicros params basePrice)

/-- Embeds `calculateDynamicPriceWithCastCount` (index.ts lines 157-211). -/
def calculateDynamicPriceWithCastCount
    (params : PricingParams) (castCount : Option Nat) (basePrice : ℚ) : String :=
  if isFreeTier params then "$0"
  else "$" ++ microsToDecimalString (calculateDynamicPriceWithCastCountMicros params castCount basePrice)

/-- Numeric (rounded) price computed by `calculateDynamicPrice`:
`0` on the free tier, otherwise `Math.round(cost * 1000000) / 1000000`. -/
def calculateDynamicPriceValue (params : PricingParams) (basePrice : ℚ) : ℚ :=
  if isFreeTier params then 0
  else (calculateDynamicPriceMicros params basePrice : ℚ) / 1000000

/-- Embeds the price computation of the free `/estimate` route
(index.ts lines 1035-1093): free-tier requests answer `"$0"` without
calling the price function, paid requests call
`calculateDynamicPriceWithCastCount`. -/
def estimatePrice (params : PricingParams) (castCount : Option Nat) (basePrice : ℚ) : String :=
  if isFreeTier params then "$0"
  else calculateDynamicPriceWithCastCount params castCount basePrice

/-- Embeds the price computation of the `x402` payment-gate middleware
(index.ts lines 847-894): free-tier requests skip the gate entirely
(`none`), paid requests charge `calculateDynamicPriceWithCastCount`. -/
def gatePrice (params : PricingParams) (castCount : Option Nat) (basePrice : ℚ) : Option String :=
  if isFreeTier params then none
  else some (calculateDynamicPriceWithCastCount params castCount basePrice)

/-! ## Pricing lemmas -/

/-- Monotonicity of the shared cost computation in the requested limit. -/
theorem dynamicCostFrom_mono (p : PricingParams) (n₁ n₂ : Nat) (b : ℚ) (h : n₁ ≤ n₂) :
    dynamicCostFrom p n₁ b ≤ dynamicCostFrom p n₂ b := by
  have hn : (n₁ : ℚ) ≤ (n₂ : ℚ) := by exact_mod_cast h
  rcases Bool.eq_false_or_eq_true p.includeReplies with hr | hr <;>
    rcases Bool.eq_false_or_eq_true p.includeReactions with hx | hx <;>
      rcases Bool.eq_false_or_eq_true p.includeParents with hp | hp <;>
        simp only [dynamicCostFrom, hr, hx, hp, if_true, if_false,
          Bool.false_eq_true, eq_self_iff_true, ite_true, ite_false,
          PRICING_perApiCall, PRICING_repliesDataMultiplier, PRICING_reactionsDataMultiplier,
          PRICING_parentRatioWithReplies, PRICING_parentRatioWithoutReplies,
          PRICING_castsPerPage, PRICING_fetchAllBuffer] <;>
        gcongr

/-- Free tier is antitone in the limit: if the larger limit is free, so is
the smaller one, all flags equal. -/
theorem isFreeTier_antitone (l₁ l₂ : Nat) (rep par rea : Bool) (h1 : 1 ≤ l₁) (h12 : l₁ ≤ l₂)
    (hf2 : isFreeTier { limit := some l₂, all := false, includeReplies := rep, includeParents := par, includeReactions := rea } = true) :
    isFreeTier { limit := some l₁, all := false, includeReplies := rep, includeParents := par, includeReactions := rea } = true := by
  have e2 : ¬ (l₂ = 0) := by omega
  have e1 : ¬ (l₁ = 0) := by omega
  simp only [isFreeTier, jsOrDefault, FREE_TIER_maxLimit, if_neg e2, if_neg e1] at hf2 ⊢
  by_cases h10 : l₂ > 10
  · rw [if_pos h10] at hf2
    exact absurd hf2 (by simp)
  · rw [if_neg h10] at hf2
    rw [if_neg (show ¬ (l₁ > 10) by omega)]
    exact hf2

/-- The shared cost computation is never negative (prior to the base-price
floor the cost is a nonnegative combination of ceilings). -/
theorem dynamicCostFrom_nonneg (p : PricingParams) (n : Nat) (b : ℚ) :
    (0:ℚ) ≤ dynamicCostFrom p n b := by
  have happ : (0:ℤ) ≤ ⌈(n : ℚ) / (PRICING_castsPerPage : ℚ)⌉ + (if p.all then (PRICING_fetchAllBuffer : ℤ) else 0) +
      (if p.includeParents then
        ⌈(n : ℚ) * (if p.includeReplies then PRICING_parentRatioWithReplies
          else PRICING_parentRatioWithoutReplies)⌉ else 0) := by
    have c1 : (0:ℤ) ≤ ⌈(n : ℚ) / (PRICING_castsPerPage : ℚ)⌉ := by
      apply Int.ceil_nonneg
      positivity
    have c2 : (0:ℤ) ≤ (if p.all then (PRICING_fetchAllBuffer : ℤ) else 0) := by
      split <;> norm_num
    have c3 : (0:ℤ) ≤ (if p.includeParents then
        ⌈(n : ℚ) * (if p.includeReplies then PRICING_parentRatioWithReplies
          else PRICING_parentRatioWithoutReplies)⌉ else 0) := by
      split
      · apply Int.ceil_nonneg
        have : (0:ℚ) ≤ (if p.includeReplies then PRICING_parentRatioWithReplies
            else PRICING_parentRatioWithoutReplies) := by
          split <;> norm_num [PRICING_parentRatioWithReplies, PRICING_parentRatioWithoutReplies]
        positivity
      · exact le_rfl
    omega
  simp only [dynamicCostFrom]
  have hQ : (0:ℚ) ≤ _ := Int.cast_le.mpr happ
  refine le_trans ?_ (le_max_left _ b)
  rcases Bool.eq_false_or_eq_true p.includeReplies with hr | hr <;>
    rcases Bool.eq_false_or_eq_true p.includeReactions with hx | hx <;>
      simp only [hr, hx, if_true, if_false, Bool.false_eq_true, eq_self_iff_true,
        ite_true, ite_false] at hQ ⊢ <;>
      first
        | exact mul_nonneg hQ (by norm_num [PRICING_perApiCall])
        | exact mul_nonneg (mul_nonneg hQ (by norm_num [PRICING_perApiCall]))
            (by norm_num [PRICING_repliesDataMultiplier, PRICING_reactionsDataMultiplier])
        | exact mul_nonneg (mul_nonneg (mul_nonneg hQ (by norm_num [PRICING_perApiCall]))
              (by norm_num [PRICING_repliesDataMultiplier]))
            (by norm_num [PRICING_reactionsDataMultiplier])

/-- Rounded micros prices are nonnegative. -/
theorem calculateDynamicPriceMicros_nonneg (p : PricingParams) (b : ℚ) :
    0 ≤ calculateDynamicPriceMicros p b := by
  unfold calculateDynamicPriceMicros jsRound
  apply Int.le_floor.mpr
  have h := dynamicCostFrom_nonneg p (requestedLimitDefault p) b
  push_cast
  nlinarith

/-- Rounded micros prices of the cast-count variant are nonnegative. -/
theorem calculateDynamicPriceWithCastCountMicros_nonneg
    (p : PricingParams) (c : Option Nat) (b : ℚ) :
    0 ≤ calculateDynamicPriceWithCastCountMicros p c b := by
  unfold calculateDynamicPriceWithCastCountMicros jsRound
  apply Int.le_floor.mpr
  have h := dynamicCostFrom_nonneg p (requestedLimitWithCastCount p c) b
  push_cast
  nlinarith

/-- Monotonicity of the rounded micros price in an explicit positive limit. -/
theorem calculateDynamicPriceMicros_mono (l₁ l₂ : Nat) (rep par rea : Bool) (b : ℚ)
    (h1 : 1 ≤ l₁) (h12 : l₁ ≤ l₂) :
    calculateDynamicPriceMicros { limit := some l₁, all := false, includeReplies := rep, includeParents := par, includeReactions := rea } b ≤
      calculateDynamicPriceMicros { limit := some l₂, all := false, includeReplies := rep, includeParents := par, includeReactions := rea } b := by
  unfold calculateDynamicPriceMicros jsRound
  apply Int.floor_le_floor
  apply add_le_add _ le_rfl
  apply mul_le_mul_of_nonneg_right _ (by norm_num)
  have e1 : requestedLimitDefault { limit := some l₁, all := false, includeReplies := rep, includeParents := par, includeReactions := rea } = l₁ := by
    simp only [requestedLimitDefault, jsOrDefault, Bool.false_eq_true, if_false, ite_false]
    rw [if_neg (show ¬ l₁ = 0 by omega)]
  have e2 : requestedLimitDefault { limit := some l₂, all := false, includeReplies := rep, includeParents := par, includeReactions := rea } = l₂ := by
    simp only [requestedLimitDefault, jsOrDefault, Bool.false_eq_true, if_false, ite_false]
    rw [if_neg (show ¬ l₂ = 0 by omega)]
  rw [e1, e2]
  exact dynamicCostFrom_mono _ l₁ l₂ b h12

/-! ## Claim theorems: pricing -/

/-- C4: a request at exactly the free-tier maximum limit (10) with none of
the premium flags set is free, and the identical request with limit 11 is
not free. -/
theorem freeTier_boundary_at_maxLimit :
    isFreeTier { limit := some 10, all := false, includeReplies := false, includeParents := false, includeReactions := false } = true ∧
    isFreeTier { limit := some 11, all := false, includeReplies := false, includeParents := false, includeReactions := false } = false := by
  decide

/-- C10 counterexample: the pricing-parameter set with the explicit limit 0
(which is ≤ 10) and no premium flags is not free, because the source
expression `params.limit || 50` treats an explicit limit of 0 as absent and
substitutes the default 50, which exceeds the free-tier maximum; so
"for every explicit limit ≤ 10 the request is free" fails at limit 0. -/
theorem isFreeTier_limit_zero_not_free :
    isFreeTier { limit := some 0, all := false, includeReplies := false, includeParents := false, includeReactions := true } = false := by
  decide

/-- C10 (amended): for every explicit limit between 1 and 10 with `all`,
`includeReplies` and `includeParents` unset, the request is free even when
`includeReactions` is set; moreover `isFreeTier` never consults the
`includeReactions` flag at all. -/
theorem isFreeTier_ignores_includeReactions (l : Nat) (r : Bool) (h1 : 1 ≤ l) (h2 : l ≤ 10) :
    isFreeTier { limit := some l, all := false, includeReplies := false, includeParents := false, includeReactions := r } = true ∧
    ∀ p : PricingParams, ∀ b : Bool, isFreeTier { p with includeReactions := b } = isFreeTier p := by
  constructor
  · simp only [isFreeTier, jsOrDefault, FREE_TIER_maxLimit, if_neg (show ¬ l = 0 by omega)]
    rw [if_neg (show ¬ l > 10 by omega)]
    simp
  · intro p b
    rcases p with ⟨pl, pa, pr, pp, px⟩
    rfl

/-- Witness for C10: evaluates the amended claim at limit 7 with the
reaction flag on. -/
theorem isFreeTier_ignores_includeReactions_witness :
    isFreeTier { limit := some 7, all := false, includeReplies := false, includeParents := false, includeReactions := true } = true :=
  (isFreeTier_ignores_includeReactions 7 true (by decide) (by decide)).1

/-- C2: for every pricing-parameter set, cast-count override and base
price, the price string the payment gate charges (when it charges at all)
is byte-for-byte the price string the free estimate endpoint reports, and
when the gate waives payment the estimate endpoint reports the free price
string; both paths invoke the single pure function
`calculateDynamicPriceWithCastCount` on the same inputs. -/
theorem gate_estimate_price_identical (p : PricingParams) (c : Option Nat) (b : ℚ) :
    (∀ s : String, gatePrice p c b = some s → estimatePrice p c b = s) ∧
    (gatePrice p c b = none → estimatePrice p c b = "$0") := by
  unfold gatePrice estimatePrice
  by_cases hf : isFreeTier p
  · simp [hf]
  · simp only [hf, Bool.false_eq_true, if_false, ite_false]
    constructor
    · intro s hs
      exact Option.some.inj hs
    · intro hs
      exact absurd hs (by simp)

/-- Witness for C2: at limit 100 with no flags and base price $0.001 the
gate charges exactly the estimate string "$0.001". -/
theorem gate_estimate_price_identical_witness :
    estimatePrice { limit := some 100, all := false, includeReplies := false, includeParents := false, includeReactions := false } none (1/1000) = "$0.001" := by
  apply (gate_estimate_price_identical _ none (1/1000)).1
  have hm : calculateDynamicPriceWithCastCountMicros { limit := some 100, all := false, includeReplies := false, includeParents := false, includeReactions := false } none (1/1000) = 1000 := by
    unfold calculateDynamicPriceWithCastCountMicros jsRound requestedLimitWithCastCount jsOrDefault
    simp only [dynamicCostFrom, Bool.false_eq_true, if_false, ite_false, if_true, ite_true,
      PRICING_castsPerPage, PRICING_perApiCall, PRICING_fetchAllBuffer,
      PRICING_parentRatioWithReplies, PRICING_parentRatioWithoutReplies,
      PRICING_repliesDataMultiplier, PRICING_reactionsDataMultiplier]
    norm_num
    rw [show (⌈(2:ℚ)/3⌉ : ℤ) = 1 by norm_num [Int.ceil_eq_iff]]
    norm_num [max_self, Int.floor_eq_iff]
  unfold gatePrice calculateDynamicPriceWithCastCount
  rw [show isFreeTier { limit := some 100, all := false, includeReplies := false, includeParents := false, includeReactions := false } = false from by decide]
  simp only [Bool.false_eq_true, if_false, ite_false]
  rw [hm]
  decide

/-- C5: with the fetch-all flag off and all other pricing parameters held
fixed, the numeric rounded price is monotonically non-decreasing in an
explicit positive limit; and the price function is deterministic (equal
inputs give an equal price string, trivially so in a pure embedding). -/
theorem calculateDynamicPrice_monotone_in_limit (l₁ l₂ : Nat) (rep par rea : Bool) (b : ℚ) (h1 : 1 ≤ l₁) (h12 : l₁ ≤ l₂) :
    calculateDynamicPriceValue { limit := some l₁, all := false, includeReplies := rep, includeParents := par, includeReactions := rea } b ≤
      calculateDynamicPriceValue { limit := some l₂, all := false, includeReplies := rep, includeParents := par, includeReactions := rea } b ∧
    calculateDynamicPrice { limit := some l₁, all := false, includeReplies := rep, includeParents := par, includeReactions := rea } b =
      calculateDynamicPrice { limit := some l₁, all := false, includeReplies := rep, includeParents := par, includeReactions := rea } b := by
  refine ⟨?_, rfl⟩
  by_cases hf2 : isFreeTier { limit := some l₂, all := false, includeReplies := rep, includeParents := par, includeReactions := rea }
  · have hf1 := isFreeTier_antitone l₁ l₂ rep par rea h1 h12 hf2
    simp [calculateDynamicPriceValue, hf1, hf2]
  · by_cases hf1 : isFreeTier { limit := some l₁, all := false, includeReplies := rep, includeParents := par, includeReactions := rea }
    · simp only [calculateDynamicPriceValue, hf1, hf2, Bool.false_eq_true, if_false, ite_false,
        if_true, ite_true]
      apply div_nonneg _ (by norm_num)
      exact_mod_cast calculateDynamicPriceMicros_nonneg _ b
    · simp only [calculateDynamicPriceValue, hf1, hf2, Bool.false_eq_true, if_false, ite_false]
      have hmQ : ((calculateDynamicPriceMicros { limit := some l₁, all := false, includeReplies := rep, includeParents := par, includeReactions := rea } b : ℤ) : ℚ) ≤ ((calculateDynamicPriceMicros { limit := some l₂, all := false, includeReplies := rep, includeParents := par, includeReactions := rea } b : ℤ) : ℚ) :=
        Int.cast_le.mpr (calculateDynamicPriceMicros_mono l₁ l₂ rep par rea b h1 h12)
      gcongr

/-- Witness for C5: evaluates the monotonicity statement at limits 20 and
300 with no flags and base price $0.001. -/
theorem calculateDynamicPrice_monotone_in_limit_witness :
    calculateDynamicPriceValue { limit := some 20, all := false, includeReplies := false, includeParents := false, includeReactions := false } (1/1000) ≤
      calculateDynamicPriceValue { limit := some 300, all := false, includeReplies := false, includeParents := false, includeReactions := false } (1/1000) ∧
    calculateDynamicPrice { limit := some 20, all := false, includeReplies := false, includeParents := false, includeReactions := false } (1/1000) =
      calculateDynamicPrice { limit := some 20, all := false, includeReplies := false, includeParents := false, includeReactions := false } (1/1000) :=
  calculateDynamicPrice_monotone_in_limit 20 300 false false false (1/1000) (by decide) (by decide)

/-! ## Rate limiter (index.ts lines 246-298)

The `RateLimiter` class keeps a map of per-endpoint timestamp lists and a
global timestamp list.  `waitForSlot` prunes entries older than the
60-second window, and either records the current time in both lists
(admission) or sleeps and retries (blocking).  The embedding makes the
mutable state explicit and models one evaluation of the body of
`waitForSlot` as a step on that state; a blocked attempt retries later as
a further step at a later `now`, so every execution of the class is some
sequence of steps. -/

/-- Embeds `ENDPOINT_LIMIT = 250` (safety margin below 300 RPM). -/
def RATE_ENDPOINT_LIMIT : Nat := 250

/-- Embeds `GLOBAL_LIMIT = 450` (safety margin below 500 RPM). -/
def RATE_GLOBAL_LIMIT : Nat := 450

/-- Embeds `WINDOW_MS = 60000`. -/
def RATE_WINDOW_MS : Nat := 60000

/-- Embeds the two mutable fields `endpointRequests : Map<string, number[]>`
(as an association list) and `globalRequests : number[]`; timestamps are
milliseconds as `Nat`. -/
structure RateLimiterState where
  endpointRequests : List (String × List Nat)
  globalRequests : List Nat
deriving Repr, DecidableEq

/-- Fresh limiter state (`new RateLimiter()`). -/
def RateLimiterState.init : RateLimiterState := ⟨[], []⟩

/-- Embeds `cleanOldRequests`: keep timestamps with `now - ts < WINDOW_MS`
(JavaScript subtraction of a larger timestamp is negative, hence kept;
`Nat` truncated subtraction gives 0 there, also kept). -/
def cleanOldRequests (now : Nat) (requests : List Nat) : List Nat :=
  requests.filter (fun timestamp => now - timestamp < RATE_WINDOW_MS)

/-- Embeds `this.endpointRequests.get(endpoint) || []`. -/
def getEndpointRequests (s : RateLimiterState) (endpoint : String) : List Nat :=
  match s.endpointRequests.find? (fun kv => kv.1 == endpoint) with
  | some kv => kv.2
  | none => []

/-- Embeds `this.endpointRequests.set(endpoint, v)`. -/
def setEndpointRequests (m : List (String × List Nat)) (endpoint : String) (v : List Nat) : List (String × List Nat) :=
  match m with
  | [] => [(endpoint, v)]
  | kv :: rest => if kv.1 == endpoint then (endpoint, v) :: rest else kv :: setEndpointRequests rest endpoint v

/-- One evaluation of the body of `waitForSlot` at wall-clock time `now`:
prune both lists and write the pruned endpoint list back; if either count
is at or over its ceiling the call blocks (returns `false`; it will rerun
as a later step after sleeping), otherwise the current time is pushed onto
both lists (admission, `true`). -/
def waitForSlotStep (s : RateLimiterState) (endpoint : String) (now : Nat) : RateLimiterState × Bool :=
  let g := cleanOldRequests now s.globalRequests
  let e := cleanOldRequests now (getEndpointRequests s endpoint)
  if g.length ≥ RATE_GLOBAL_LIMIT ∨ e.length ≥ RATE_ENDPOINT_LIMIT then
    ({ endpointRequests := setEndpointRequests s.endpointRequests endpoint e, globalRequests := g }, false)
  else
    ({ endpointRequests := setEndpointRequests s.endpointRequests endpoint (e ++ [now]), globalRequests := g ++ [now] }, true)

/-- Runs a sequence of `waitForSlot` attempts (endpoint and time of each)
from the fresh state. -/
def runRateLimiter (evts : List (String × Nat)) : RateLimiterState :=
  evts.foldl (fun s evt => (waitForSlotStep s evt.1 evt.2).1) RateLimiterState.init

/-- Both recorded-timestamp stores respect their ceilings. -/
def RateLimiterState.Bounded (s : RateLimiterState) : Prop :=
  s.globalRequests.length ≤ RATE_GLOBAL_LIMIT ∧
  ∀ kv ∈ s.endpointRequests, kv.2.length ≤ RATE_ENDPOINT_LIMIT

/-- Pruning never lengthens a list. -/
theorem cleanOldRequests_length_le (now : Nat) (l : List Nat) :
    (cleanOldRequests now l).length ≤ l.length :=
  List.length_filter_le _ l

/-- The endpoint read is bounded when the store is. -/
theorem getEndpointRequests_length_le (s : RateLimiterState) (endpoint : String)
    (h : ∀ kv ∈ s.endpointRequests, kv.2.length ≤ RATE_ENDPOINT_LIMIT) :
    (getEndpointRequests s endpoint).length ≤ RATE_ENDPOINT_LIMIT := by
  unfold getEndpointRequests
  cases hf : s.endpointRequests.find? (fun kv => kv.1 == endpoint) with
  | none => simp
  | some kv => exact h kv (List.mem_of_find?_eq_some hf)

/-- Membership after a store write: either the written pair or an original
member. -/
theorem mem_setEndpointRequests (m : List (String × List Nat)) (endpoint : String) (v : List Nat)
    (kv : String × List Nat) (h : kv ∈ setEndpointRequests m endpoint v) :
    kv = (endpoint, v) ∨ kv ∈ m := by
  induction m with
  | nil =>
    simp only [setEndpointRequests, List.mem_singleton] at h
    exact Or.inl h
  | cons hd tl ih =>
    simp only [setEndpointRequests] at h
    by_cases he : hd.1 == endpoint
    · rw [if_pos he] at h
      rcases List.mem_cons.mp h with h1 | h1
      · exact Or.inl h1
      · exact Or.inr (List.mem_cons_of_mem hd h1)
    · rw [if_neg he] at h
      rcases List.mem_cons.mp h with h1 | h1
      · exact Or.inr (h1 ▸ List.mem_cons_self hd tl)
      · rcases ih h1 with h2 | h2
        · exact Or.inl h2
        · exact Or.inr (List.mem_cons_of_mem hd h2)

/-- One `waitForSlot` step preserves the ceilings: a blocked attempt only
prunes, an admission appends one timestamp to lists pruned strictly below
their ceilings. -/
theorem waitForSlotStep_bounded (s : RateLimiterState) (endpoint : String) (now : Nat)
    (h : s.Bounded) : ((waitForSlotStep s endpoint now).1).Bounded := by
  obtain ⟨hg, he⟩ := h
  unfold waitForSlotStep
  by_cases hc : (cleanOldRequests now s.globalRequests).length ≥ RATE_GLOBAL_LIMIT ∨
      (cleanOldRequests now (getEndpointRequests s endpoint)).length ≥ RATE_ENDPOINT_LIMIT
  · rw [if_pos hc]
    refine ⟨le_trans (cleanOldRequests_length_le now _) hg, ?_⟩
    intro kv hkv
    rcases mem_setEndpointRequests _ _ _ kv hkv with h1 | h1
    · subst h1
      exact le_trans (cleanOldRequests_length_le now _) (getEndpointRequests_length_le s endpoint he)
    · exact he kv h1
  · rw [if_neg hc]
    push_neg at hc
    obtain ⟨hc1, hc2⟩ := hc
    constructor
    · simp only [List.length_append, List.length_singleton]
      omega
    · intro kv hkv
      rcases mem_setEndpointRequests _ _ _ kv hkv with h1 | h1
      · subst h1
        simp only [List.length_append, List.length_singleton]
        omega
      · exact he kv h1

/-- Every state reachable from the fresh state respects the ceilings. -/
theorem runRateLimiter_bounded (evts : List (String × Nat)) :
    (runRateLimiter evts).Bounded := by
  unfold runRateLimiter
  have hinit : RateLimiterState.init.Bounded := by
    constructor
    · simp [RateLimiterState.init, RATE_GLOBAL_LIMIT]
    · intro kv hkv
      simp [RateLimiterState.init] at hkv
  have hfold : ∀ (l : List (String × Nat)) (s : RateLimiterState), s.Bounded →
      (l.foldl (fun s evt => (waitForSlotStep s evt.1 evt.2).1) s).Bounded := by
    intro l
    induction l with
    | nil => intro s hs; exact hs
    | cons hd tl ih =>
      intro s hs
      exact ih _ (waitForSlotStep_bounded s hd.1 hd.2 hs)
  exact hfold evts _ hinit

/-- C3: after every sequence of `waitForSlot` attempts, at every moment,
the number of recorded timestamps for any endpoint key lying within the
trailing 60-second window never exceeds the per-endpoint ceiling (250),
and the number of recorded global timestamps within the window never
exceeds the global ceiling (450). -/
theorem rateLimiter_window_bounds (evts : List (String × Nat)) (endpoint : String) (t : Nat) :
    (cleanOldRequests t (getEndpointRequests (runRateLimiter evts) endpoint)).length ≤ RATE_ENDPOINT_LIMIT ∧
    (cleanOldRequests t (runRateLimiter evts).globalRequests).length ≤ RATE_GLOBAL_LIMIT := by
  obtain ⟨hg, he⟩ := runRateLimiter_bounded evts
  exact ⟨le_trans (cleanOldRequests_length_le t _) (getEndpointRequests_length_le _ endpoint he),
    le_trans (cleanOldRequests_length_le t _) hg⟩

/-! ## Git filter (index.ts lines 1826-1865) -/

/-- Modelled from the spec: `picomatch.isMatch(filePath, pattern, { dot: true })`
is a call into the external `picomatch` npm dependency, not code of this
repository.  The spec describes it as glob matching with dotfile matching
enabled; this model implements the glob constructs the spec and its
examples use: literal characters, `*` (a run of non-separator characters)
and `**` (a run of arbitrary characters, a `**/` component also matching
zero directory levels).  Dotfiles are matched like any other name (the
source always passes `dot: true`).  The first argument is recursion fuel;
every recursive call shrinks pattern or text, so `patternLength +
textLength + 1` is always enough. -/
def globMatchFuel : Nat → List Char → List Char → Bool
  | 0, _, _ => false
  | _ + 1, [], s => s.isEmpty
  | fuel + 1, '*' :: '*' :: '/' :: ps, s =>
    globMatchFuel fuel ps s ||
      (match s with
       | [] => false
       | _ :: s2 => globMatchFuel fuel ('*' :: '*' :: '/' :: ps) s2)
  | fuel + 1, '*' :: '*' :: ps, s =>
    globMatchFuel fuel ps s ||
      (match s with
       | [] => false
       | _ :: s2 => globMatchFuel fuel ('*' :: '*' :: ps) s2)
  | fuel + 1, '*' :: ps, s =>
    globMatchFuel fuel ps s ||
      (match s with
       | [] => false
       | c :: s2 => !(c == '/') && globMatchFuel fuel ('*' :: ps) s2)
  | fuel + 1, p :: ps, s =>
    match s with
    | [] => false
    | c :: s2 => p == c && globMatchFuel fuel ps s2

/-- Glob matching on strings with sufficient fuel. -/
def picomatchIsMatch (filePath : String) (pattern : String) : Bool :=
  globMatchFuel (pattern.length + filePath.length + 1) pattern.toList filePath.toList

/-- Embeds `matchesPatterns` (index.ts lines 1827-1851): default-include
when no include patterns; a path passes when it matches some include
pattern (if any are given) and is then rejected when it matches some
exclude pattern. -/
def matchesPatterns (filePath : String) (includePatterns excludePatterns : Option (List String)) : Bool :=
  let included :=
    match includePatterns with
    | some pats =>
      if pats.length > 0 then pats.any (fun pattern => picomatchIsMatch filePath pattern) else true
    | none => true
  if !included then false
  else
    match excludePatterns with
    | some pats =>
      if pats.length > 0 then
        if pats.any (fun pattern => picomatchIsMatch filePath pattern) then false else true
      else true
    | none => true

/-- Conditional include check as a plain boolean formula. -/
theorem ifLength_eq_isEmpty_or (pats : List String) (x : Bool) :
    (if pats.length > 0 then x else true) = (pats.isEmpty || x) := by
  cases pats <;> simp

/-- C7: with no patterns every path is included; in general the Git filter
accepts exactly the paths that match at least one include pattern (when
any are given) and match none of the exclude patterns; and the path
"src/a.ts" with include ["src/**"] and exclude ["**/*.ts"] is excluded. -/
theorem matchesPatterns_spec (filePath : String) (inc exc : Option (List String)) :
    matchesPatterns filePath none none = true ∧
    matchesPatterns filePath inc exc =
      (((inc.getD []).isEmpty || (inc.getD []).any (fun pattern => picomatchIsMatch filePath pattern)) &&
        !((exc.getD []).any (fun pattern => picomatchIsMatch filePath pattern))) ∧
    matchesPatterns "src/a.ts" (some ["src/**"]) (some ["**/*.ts"]) = false := by
  refine ⟨rfl, ?_, by decide⟩
  unfold matchesPatterns
  cases inc with
  | none =>
    cases exc with
    | none => simp
    | some epats =>
      simp only [Option.getD, List.isEmpty_nil, Bool.true_or, Bool.not_true, Bool.false_and,
        ifLength_eq_isEmpty_or]
      cases hb : epats.any (fun pattern => picomatchIsMatch filePath pattern) <;>
        cases epats <;> simp_all
  | some ipats =>
    cases exc with
    | none =>
      simp only [Option.getD, ifLength_eq_isEmpty_or]
      cases hb : (ipats.isEmpty || ipats.any (fun pattern => picomatchIsMatch filePath pattern)) <;>
        simp [hb]
    | some epats =>
      simp only [Option.getD, ifLength_eq_isEmpty_or]
      cases hb : (ipats.isEmpty || ipats.any (fun pattern => picomatchIsMatch filePath pattern)) <;>
        cases he : epats.any (fun pattern => picomatchIsMatch filePath pattern) <;>
          cases epats <;> simp_all

/-! ## Farcaster casts: pagination and parent resolution (index.ts lines 328-439)

`fetchCasts` paginates the upstream feed (always requesting the maximum
page size), filters each page by the reply policy, reverses the
accumulated sequence when the caller asked for oldest-first, resolves
parent casts in batches of 25 (each lookup independently fault-tolerant),
and finally either returns everything (fetch-all) or truncates to the
requested limit.  The upstream is modelled by the list of pages it serves
in order — a continuation cursor accompanies every page except the last
(the terminating cursor) — and the parent-lookup endpoint by an
`Except`-valued function (`Except.error` is an upstream throw, an `ok`
payload of `none` is a response with no cast). -/

/-- Embeds the `FarcasterCast` record produced by `transformCast`
(index.ts lines 328-343), keeping the fields the fetch logic reads or
writes (`hash`, `parentHash`, the `parentCast` back-reference) and the
representative payload fields; author, embed and attachment fields are
carried through `fetchCasts` untouched and are omitted here. -/
inductive FarcasterCast where
  | mk (hash : String) (parentHash : Option String) (text : String) (timestamp : String)
      (likes : Nat) (recasts : Nat) (parentCast : Option FarcasterCast)

/-- Hash of a cast. -/
def FarcasterCast.hash : FarcasterCast → String
  | .mk h _ _ _ _ _ _ => h

/-- Parent hash of a cast (absent for top-level casts). -/
def FarcasterCast.parentHash : FarcasterCast → Option String
  | .mk _ p _ _ _ _ _ => p

/-- The attached parent cast, if the resolution step attached one. -/
def FarcasterCast.parentCast : FarcasterCast → Option FarcasterCast
  | .mk _ _ _ _ _ _ pc => pc

/-- Embeds the mutation `c.parentCast = parentMap[c.parentHash]`
(index.ts line 432): same cast with the parent back-reference set. -/
def FarcasterCast.withParentCast : FarcasterCast → FarcasterCast → FarcasterCast
  | .mk h p t ts l r _, par => .mk h p t ts l r (some par)

/-- Embeds `FarcasterQueryParams` as read by `fetchCasts` (lines 364-369). -/
structure FarcasterQueryParams where
  limit : Option Nat := none
  all : Bool := false
  includeReplies : Bool := false
  includeParents : Bool := false
  includeReactions : Bool := false
  sortOrder : Option String := none

/-- Embeds the do-while pagination loop (index.ts lines 375-393): filter
the served page by the reply policy (`includeReplies || !c.parent_hash`),
append it, and continue while a cursor remains and either fetch-all is set
or the accumulated count is still below the limit. -/
def paginateCasts (includeReplies fetchAll : Bool) (limit : Nat) :
    List (List FarcasterCast) → List FarcasterCast → List FarcasterCast
  | [], acc => acc
  | page :: rest, acc =>
    let filtered := page.filter (fun c => includeReplies || c.parentHash.isNone)
    let acc2 := acc ++ filtered
    match rest with
    | [] => acc2
    | r1 :: rs =>
      if fetchAll ∨ acc2.length < limit then paginateCasts includeReplies fetchAll limit (r1 :: rs) acc2
      else acc2

/-- Embeds `[...new Set(xs)]` (index.ts line 402): first-occurrence
deduplication, written with an explicit seen-set so it evaluates by
structural recursion. -/
def jsSetDedupGo (seen : List String) : List String → List String
  | [] => []
  | x :: xs => if x ∈ seen then jsSetDedupGo seen xs else x :: jsSetDedupGo (x :: seen) xs

/-- First-occurrence deduplication of a string list. -/
def jsSetDedup (l : List String) : List String := jsSetDedupGo [] l

/-- Embeds the batch slicing of the parent-resolution for loop
(index.ts lines 406-408): `k` is the remaining capacity of the chunk
being assembled (in reverse), `batchSize` the slice width. -/
def chunkGo (batchSize : Nat) : List String → List String → Nat → List (List String)
  | [], cur, _ => if cur.isEmpty then [] else [cur.reverse]
  | x :: xs, cur, 0 => cur.reverse :: chunkGo batchSize xs [x] (batchSize - 1)
  | x :: xs, cur, k + 1 => chunkGo batchSize xs (x :: cur) k

/-- Consecutive slices of width `batchSize`. -/
def chunksOf (batchSize : Nat) (l : List String) : List (List String) :=
  chunkGo batchSize l [] batchSize

/-- Embeds one parent lookup inside the try/catch of the batch map
(index.ts lines 410-421): an upstream throw is caught and contributes
nothing, and a response without a cast contributes nothing
(`res.cast ? transformCast(res.cast) : null`). -/
def lookupCatch (lookup : String → Except Unit (Option FarcasterCast)) (hash : String) :
    Option FarcasterCast :=
  match lookup hash with
  | Except.ok r => r
  | Except.error _ => none

/-- Embeds the accumulation of `parentMap` across batches (index.ts lines
405-428): each batch contributes its successful lookups keyed by hash. -/
def buildParentMap (lookup : String → Except Unit (Option FarcasterCast))
    (parentHashes : List String) : List (String × FarcasterCast) :=
  (chunksOf 25 parentHashes).foldl
    (fun m batch => m ++ batch.filterMap (fun h => (lookupCatch lookup h).map (fun c => (h, c)))) []

/-- Embeds `parentMap[c.parentHash]` (index.ts line 431). -/
def findParent (m : List (String × FarcasterCast)) (h : String) : Option FarcasterCast :=
  (m.find? (fun kv => kv.1 == h)).map (fun kv => kv.2)

/-- Embeds the final attachment loop (index.ts lines 430-434):
`if (c.parentHash && parentMap[c.parentHash]) c.parentCast = parentMap[c.parentHash]`. -/
def attachParent (parentMap : List (String × FarcasterCast)) (c : FarcasterCast) : FarcasterCast :=
  match c.parentHash with
  | some h =>
    match findParent parentMap h with
    | some pc => c.withParentCast pc
    | none => c
  | none => c

/-- Embeds the parent-resolution block of `fetchCasts` (index.ts lines
400-435): deduplicate the non-null parent hashes, resolve them in batches
of 25 with each lookup independently fault-tolerant, then attach the
resolved parent to every cast whose parent hash was resolved.  The
function is total: a failed lookup is skipped, never escalated. -/
def resolveParents (lookup : String → Except Unit (Option FarcasterCast))
    (allCasts : List FarcasterCast) : List FarcasterCast :=
  let parentHashes := jsSetDedup (allCasts.filterMap (fun c => c.parentHash))
  let parentMap := buildParentMap lookup parentHashes
  allCasts.map (attachParent parentMap)

/-- Embeds `fetchCasts` (index.ts lines 364-439): paginate, apply sort
order (reversal happens before truncation), resolve parents if requested,
and return everything on fetch-all or the first `limit` casts otherwise. -/
def fetchCasts (pages : List (List FarcasterCast))
    (lookup : String → Except Unit (Option FarcasterCast))
    (params : FarcasterQueryParams) : List FarcasterCast :=
  let fetchAll := params.all
  let limit := jsOrDefault params.limit 50
  let allCasts := paginateCasts params.includeReplies fetchAll limit pages []
  let allCasts := if params.sortOrder.getD "newest" = "oldest" then allCasts.reverse else allCasts
  let allCasts := if params.includeParents then resolveParents lookup allCasts else allCasts
  if fetchAll then allCasts else allCasts.take limit

/-- Unfolding of the pagination loop on a page followed by more pages. -/
theorem paginateCasts_cons (ir fa : Bool) (lim : Nat) (page r1 : List FarcasterCast)
    (rs : List (List FarcasterCast)) (acc : List FarcasterCast) :
    paginateCasts ir fa lim (page :: r1 :: rs) acc =
      (if fa ∨ (acc ++ page.filter (fun c => ir || c.parentHash.isNone)).length < lim
       then paginateCasts ir fa lim (r1 :: rs) (acc ++ page.filter (fun c => ir || c.parentHash.isNone))
       else acc ++ page.filter (fun c => ir || c.parentHash.isNone)) := rfl

/-- Unfolding of the pagination loop on the final page (terminating
cursor): the loop always exits after consuming it. -/
theorem paginateCasts_last (ir fa : Bool) (lim : Nat) (page : List FarcasterCast)
    (acc : List FarcasterCast) :
    paginateCasts ir fa lim [page] acc = acc ++ page.filter (fun c => ir || c.parentHash.isNone) := rfl

/-- A top-level cast used in concrete scenarios. -/
def simpleCast (h : String) : FarcasterCast := FarcasterCast.mk h none "" "" 0 0 none

/-- A page of `count` distinct top-level casts with numbered hashes. -/
def castPage (start count : Nat) : List FarcasterCast :=
  (List.range count).map (fun j => simpleCast (toString (start + j)))

/-- Three upstream pages of 50 casts each, newest first. -/
def pages3 : List (List FarcasterCast) := [castPage 0 50, castPage 50 50, castPage 100 50]

/-- A parent-lookup endpoint that is never consulted in these scenarios. -/
def noLookup : String → Except Unit (Option FarcasterCast) := fun _ => Except.error ()

/-- C1 counterexample: with 3 upstream pages of 50 items and a terminating
cursor, limit 120, the "oldest" ordering is not the reverse of the 120
newest items: `fetchCasts` reverses the accumulated 150 items before
truncating, so "oldest" returns the oldest 120 of the 150 fetched (hashes
"149",...,"30"), not the reverse of the newest 120 ("119",...,"0"). -/
theorem fetchCasts_oldest_not_reverse_of_newest :
    ((fetchCasts pages3 noLookup { limit := some 120, all := false, includeReplies := false, includeParents := false, includeReactions := false, sortOrder := some "oldest" }).map FarcasterCast.hash) ≠
      (((fetchCasts pages3 noLookup { limit := some 120, all := false, includeReplies := false, includeParents := false, includeReactions := false, sortOrder := some "newest" }).map FarcasterCast.hash).reverse) := by
  decide

/-- C1 (amended): for every upstream that yields 3 pages of 50 reply-free
items and then a terminating cursor, a request with limit 120 and sort
order "newest" returns exactly the 120 newest items in newest-first
order; the same request with sort order "oldest" returns the oldest 120
of the 150 accumulated items in oldest-first order — the accumulated
sequence is reversed before truncation, not after. -/
theorem fetchCasts_three_pages_limit120 (p1 p2 p3 : List FarcasterCast)
    (lookup : String → Except Unit (Option FarcasterCast))
    (h1 : p1.length = 50) (h2 : p2.length = 50) (h3 : p3.length = 50)
    (hnp : (p1 ++ p2 ++ p3).all (fun c => c.parentHash.isNone) = true) :
    fetchCasts [p1, p2, p3] lookup { limit := some 120, all := false, includeReplies := false, includeParents := false, includeReactions := false, sortOrder := some "newest" } =
      (p1 ++ p2 ++ p3).take 120 ∧
    fetchCasts [p1, p2, p3] lookup { limit := some 120, all := false, includeReplies := false, includeParents := false, includeReactions := false, sortOrder := some "oldest" } =
      ((p1 ++ p2 ++ p3).reverse).take 120 := by
  have hall : ∀ c ∈ p1 ++ p2 ++ p3, c.parentHash.isNone = true := List.all_eq_true.mp hnp
  have e1 : p1.filter (fun c => false || c.parentHash.isNone) = p1 :=
    List.filter_eq_self.mpr (fun c hc => by
      simp only [Bool.false_or]
      exact hall c (by simp [hc]))
  have e2 : p2.filter (fun c => false || c.parentHash.isNone) = p2 :=
    List.filter_eq_self.mpr (fun c hc => by
      simp only [Bool.false_or]
      exact hall c (by simp [hc]))
  have e3 : p3.filter (fun c => false || c.parentHash.isNone) = p3 :=
    List.filter_eq_self.mpr (fun c hc => by
      simp only [Bool.false_or]
      exact hall c (by simp [hc]))
  have hpag : paginateCasts false false 120 [p1, p2, p3] [] = p1 ++ p2 ++ p3 := by
    rw [paginateCasts_cons, e1, List.nil_append,
      if_pos (Or.inr (by rw [h1]; norm_num))]
    rw [paginateCasts_cons, e2,
      if_pos (Or.inr (by rw [List.length_append, h1, h2]; norm_num))]
    rw [paginateCasts_last, e3, List.append_assoc]
  constructor
  · simp only [fetchCasts, Option.getD_some, jsOrDefault, Bool.false_eq_true, if_false, ite_false]
    rw [if_neg (show ¬ (120 = 0) by decide), if_neg (show ¬ ("newest" = "oldest") by decide), hpag]
  · simp only [fetchCasts, Option.getD_some, jsOrDefault, Bool.false_eq_true, if_false, ite_false]
    rw [if_neg (show ¬ (120 = 0) by decide), if_pos trivial, hpag]

/-- Witness for C1: evaluates the amended statement on three concrete
pages of 50 numbered casts. -/
theorem fetchCasts_three_pages_limit120_witness :
    fetchCasts pages3 noLookup { limit := some 120, all := false, includeReplies := false, includeParents := false, includeReactions := false, sortOrder := some "newest" } =
      (castPage 0 50 ++ castPage 50 50 ++ castPage 100 50).take 120 ∧
    fetchCasts pages3 noLookup { limit := some 120, all := false, includeReplies := false, includeParents := false, includeReactions := false, sortOrder := some "oldest" } =
      ((castPage 0 50 ++ castPage 50 50 ++ castPage 100 50).reverse).take 120 :=
  fetchCasts_three_pages_limit120 (castPage 0 50) (castPage 50 50) (castPage 100 50) noLookup
    (by decide) (by decide) (by decide) (by decide)

/-! ## Parent-resolution lemmas -/

/-- Attaching a parent preserves the parent hash. -/
theorem FarcasterCast.parentHash_withParentCast (c pc : FarcasterCast) :
    (c.withParentCast pc).parentHash = c.parentHash := by
  cases c
  rfl

/-- Attaching a parent sets the back-reference. -/
theorem FarcasterCast.parentCast_withParentCast (c pc : FarcasterCast) :
    (c.withParentCast pc).parentCast = some pc := by
  cases c
  rfl

/-- Membership in the deduplication: present in the input and not seen. -/
theorem mem_jsSetDedupGo (a : String) :
    ∀ (l seen : List String), a ∈ jsSetDedupGo seen l ↔ (a ∈ l ∧ a ∉ seen) := by
  intro l
  induction l with
  | nil =>
    intro seen
    simp [jsSetDedupGo]
  | cons x xs ih =>
    intro seen
    simp only [jsSetDedupGo]
    by_cases hx : x ∈ seen
    · rw [if_pos hx, ih]
      simp only [List.mem_cons]
      constructor
      · rintro ⟨h1, h2⟩
        exact ⟨Or.inr h1, h2⟩
      · rintro ⟨h1 | h1, h2⟩
        · exact absurd (h1 ▸ hx) h2
        · exact ⟨h1, h2⟩
    · rw [if_neg hx]
      simp only [List.mem_cons, ih (x :: seen), List.mem_cons]
      constructor
      · rintro (h1 | ⟨h1, h2⟩)
        · exact ⟨Or.inl h1, h1 ▸ hx⟩
        · exact ⟨Or.inr h1, fun hs => h2 (Or.inr hs)⟩
      · rintro ⟨h1 | h1, h2⟩
        · exact Or.inl h1
        · by_cases hax : a = x
          · exact Or.inl hax
          · exact Or.inr ⟨h1, fun hs => hs.elim hax h2⟩

/-- Membership in the deduplicated list. -/
theorem mem_jsSetDedup (a : String) (l : List String) : a ∈ jsSetDedup l ↔ a ∈ l := by
  unfold jsSetDedup
  rw [mem_jsSetDedupGo]
  simp

/-- The deduplicated list has no duplicates. -/
theorem nodup_jsSetDedupGo : ∀ (l seen : List String), (jsSetDedupGo seen l).Nodup := by
  intro l
  induction l with
  | nil =>
    intro seen
    simp [jsSetDedupGo]
  | cons x xs ih =>
    intro seen
    simp only [jsSetDedupGo]
    split
    · exact ih _
    · refine List.nodup_cons.mpr ⟨?_, ih (x :: seen)⟩
      intro hmem
      exact ((mem_jsSetDedupGo x xs (x :: seen)).mp hmem).2 (List.mem_cons_self x seen)

/-- The seen set only matters through the elements the filter keeps. -/
theorem filter_jsSetDedupGo_congr (p : String → Bool) :
    ∀ (l seen₁ seen₂ : List String), (∀ a, p a = true → (a ∈ seen₁ ↔ a ∈ seen₂)) →
      (jsSetDedupGo seen₁ l).filter p = (jsSetDedupGo seen₂ l).filter p := by
  intro l
  induction l with
  | nil =>
    intro seen₁ seen₂ hcond
    rfl
  | cons x xs ih =>
    intro seen₁ seen₂ hcond
    have hstep : ∀ a, p a = true → (a ∈ x :: seen₁ ↔ a ∈ x :: seen₂) := by
      intro a hpa
      simp only [List.mem_cons, hcond a hpa]
    simp only [jsSetDedupGo]
    by_cases h1 : x ∈ seen₁ <;> by_cases h2 : x ∈ seen₂
    · rw [if_pos h1, if_pos h2]
      exact ih _ _ hcond
    · rw [if_pos h1, if_neg h2]
      have hpx : p x = false := by
        cases hpx : p x
        · rfl
        · exact absurd ((hcond x hpx).mp h1) h2
      rw [List.filter_cons, if_neg (by simp [hpx])]
      refine ih _ _ ?_
      intro a hpa
      rw [hcond a hpa]
      simp only [List.mem_cons]
      constructor
      · intro h
        exact Or.inr h
      · rintro (h | h)
        · subst h
          rw [hpa] at hpx
          cases hpx
        · exact h
    · rw [if_neg h1, if_pos h2]
      have hpx : p x = false := by
        cases hpx : p x
        · rfl
        · exact absurd ((hcond x hpx).mpr h2) h1
      rw [List.filter_cons, if_neg (by simp [hpx])]
      refine ih _ _ ?_
      intro a hpa
      rw [← hcond a hpa]
      simp only [List.mem_cons]
      constructor
      · rintro (h | h)
        · subst h
          rw [hpa] at hpx
          cases hpx
        · exact h
      · intro h
        exact Or.inr h
    · rw [if_neg h1, if_neg h2]
      rw [List.filter_cons, List.filter_cons]
      cases hpx : p x
      · rw [if_neg (by simp [hpx]), if_neg (by simp [hpx])]
        exact ih _ _ hstep
      · rw [if_pos (by simp [hpx]), if_pos (by simp [hpx])]
        rw [ih _ _ hstep]

/-- First-occurrence deduplication commutes with filtering. -/
theorem jsSetDedupGo_filter (p : String → Bool) :
    ∀ (l seen : List String),
      jsSetDedupGo seen (l.filter p) = (jsSetDedupGo seen l).filter p := by
  intro l
  induction l with
  | nil =>
    intro seen
    rfl
  | cons x xs ih =>
    intro seen
    rw [List.filter_cons]
    cases hpx : p x
    · rw [if_neg (by simp [hpx])]
      simp only [jsSetDedupGo]
      by_cases hx : x ∈ seen
      · rw [if_pos hx]
        exact ih seen
      · rw [if_neg hx, List.filter_cons, if_neg (by simp [hpx])]
        rw [ih seen]
        refine filter_jsSetDedupGo_congr p xs seen (x :: seen) ?_
        intro a hpa
        simp only [List.mem_cons]
        constructor
        · intro h
          exact Or.inr h
        · rintro (h | h)
          · subst h
            rw [hpa] at hpx
            cases hpx
          · exact h
    · rw [if_pos (by simp [hpx])]
      simp only [jsSetDedupGo]
      by_cases hx : x ∈ seen
      · rw [if_pos hx, if_pos hx]
        exact ih seen
      · rw [if_neg hx, if_neg hx, List.filter_cons, if_pos (by simp [hpx])]
        rw [ih (x :: seen)]

/-- Deduplication commutes with filtering. -/
theorem jsSetDedup_filter (p : String → Bool) (l : List String) :
    jsSetDedup (l.filter p) = (jsSetDedup l).filter p :=
  jsSetDedupGo_filter p l []

/-- Lookup misses on a map whose keys come from hashes not containing `h`. -/
theorem findParent_filterMap_not_mem (lookup : String → Except Unit (Option FarcasterCast))
    (h : String) :
    ∀ l : List String, h ∉ l →
      findParent (l.filterMap (fun x => (lookupCatch lookup x).map (fun c => (x, c)))) h = none := by
  intro l
  induction l with
  | nil =>
    intro
    rfl
  | cons x xs ih =>
    intro hnm
    have hx : ¬ (x = h) := fun he => hnm (he ▸ List.mem_cons_self x xs)
    have hxs : h ∉ xs := fun hm => hnm (List.mem_cons_of_mem x hm)
    rw [List.filterMap_cons]
    cases hc : lookupCatch lookup x with
    | none =>
      simp only [Option.map_none']
      exact ih hxs
    | some c =>
      simp only [Option.map_some']
      unfold findParent
      rw [List.find?_cons_of_neg _ (by simp [hx])]
      exact ih hxs

/-- On a duplicate-free key list, the assembled parent map answers each
contained hash exactly as the (caught) lookup does. -/
theorem findParent_filterMap_mem (lookup : String → Except Unit (Option FarcasterCast))
    (h : String) :
    ∀ l : List String, l.Nodup → h ∈ l →
      findParent (l.filterMap (fun x => (lookupCatch lookup x).map (fun c => (x, c)))) h =
        lookupCatch lookup h := by
  intro l
  induction l with
  | nil =>
    intro hnd hm
    cases hm
  | cons x xs ih =>
    intro hnd hm
    obtain ⟨hxnin, hndxs⟩ := List.nodup_cons.mp hnd
    rw [List.filterMap_cons]
    by_cases hxh : h = x
    · subst hxh
      cases hc : lookupCatch lookup h with
      | none =>
        simp only [Option.map_none']
        rw [findParent_filterMap_not_mem lookup h xs hxnin]
      | some c =>
        simp only [Option.map_some']
        unfold findParent
        rw [List.find?_cons_of_pos _ (by simp)]
        rfl
    · have hmxs : h ∈ xs := by
        rcases List.mem_cons.mp hm with h1 | h1
        · exact absurd h1 hxh
        · exact h1
      cases hc : lookupCatch lookup x with
      | none =>
        simp only [Option.map_none']
        exact ih hndxs hmxs
      | some c =>
        simp only [Option.map_some']
        unfold findParent
        rw [List.find?_cons_of_neg _ (by simp only [beq_iff_eq]; exact fun he => hxh he.symm)]
        exact ih hndxs hmxs

/-- Folding batch results concatenates their successful lookups. -/
theorem foldl_append_filterMap (f : String → Option (String × FarcasterCast)) :
    ∀ (bs : List (List String)) (acc : List (String × FarcasterCast)),
      bs.foldl (fun m batch => m ++ batch.filterMap f) acc = acc ++ bs.flatten.filterMap f := by
  intro bs
  induction bs with
  | nil =>
    intro acc
    simp
  | cons b bs ih =>
    intro acc
    simp only [List.foldl_cons, ih, List.flatten_cons, List.filterMap_append, List.append_assoc]

/-- The batch slices flatten back to the sliced list. -/
theorem chunkGo_flatten (b : Nat) :
    ∀ (l cur : List String) (k : Nat), (chunkGo b l cur k).flatten = cur.reverse ++ l := by
  intro l
  induction l with
  | nil =>
    intro cur k
    simp only [chunkGo]
    split
    · rename_i hemp
      rw [List.isEmpty_iff.mp hemp]
      simp
    · simp
  | cons x xs ih =>
    intro cur k
    cases k with
    | zero =>
      simp only [chunkGo, List.flatten_cons, ih [x] (b - 1)]
      simp
    | succ k2 =>
      simp only [chunkGo, ih (x :: cur) k2, List.reverse_cons, List.append_assoc]
      simp

/-- The parent map is the per-hash successful-lookup association list. -/
theorem buildParentMap_eq (lookup : String → Except Unit (Option FarcasterCast))
    (l : List String) :
    buildParentMap lookup l =
      l.filterMap (fun x => (lookupCatch lookup x).map (fun c => (x, c))) := by
  unfold buildParentMap chunksOf
  rw [foldl_append_filterMap, chunkGo_flatten]
  simp

/-- Distinct parent hashes for which the output actually carries an
attached parent, computed from the output alone. -/
def attachedParentHashes (casts : List FarcasterCast) : List String :=
  jsSetDedup (casts.filterMap (fun c => if c.parentCast.isSome then c.parentHash else none))

/-- Pointwise description of the attachment selector pushed through a map. -/
theorem filterMap_attach_eq (attachF : FarcasterCast → FarcasterCast) (pred : String → Bool) :
    ∀ cs : List FarcasterCast,
      (∀ c ∈ cs, (if (attachF c).parentCast.isSome then (attachF c).parentHash else none) =
        c.parentHash.bind (fun h => if pred h then some h else none)) →
      (cs.map attachF).filterMap (fun c => if c.parentCast.isSome then c.parentHash else none) =
        (cs.filterMap (fun c => c.parentHash)).filter pred := by
  intro cs
  induction cs with
  | nil =>
    intro
    rfl
  | cons c cs ih =>
    intro hpt
    have hc := hpt c (List.mem_cons_self c cs)
    have htl := ih (fun d hd => hpt d (List.mem_cons_of_mem c hd))
    simp only [List.map_cons, List.filterMap_cons, hc]
    cases hph : c.parentHash with
    | none =>
      simp only [Option.bind]
      exact htl
    | some h =>
      simp only [Option.bind]
      cases hpr : pred h with
      | false =>
        rw [if_neg (by simp [hpr]), List.filter_cons, if_neg (by simp [hpr])]
        exact htl
      | true =>
        rw [if_pos (by simp [hpr]), List.filter_cons, if_pos (by simp [hpr]), htl]

/-- C6: for every batch of casts with parent references, if exactly one
distinct parent lookup throws and all the other distinct parent lookups
return a cast, then the parent-resolution step attaches exactly M-1 of
the M distinct parent references, and the request still succeeds — the
output has exactly one (unchanged-length) entry per input cast, the
single failure being skipped, never escalated. -/
theorem resolveParents_single_failure (casts : List FarcasterCast)
    (lookup : String → Except Unit (Option FarcasterCast)) (h0 : String)
    (hclean : casts.all (fun c => c.parentCast.isNone) = true)
    (hmem : h0 ∈ jsSetDedup (casts.filterMap (fun c => c.parentHash)))
    (hfail : lookup h0 = Except.error ())
    (hok : ∀ h ∈ jsSetDedup (casts.filterMap (fun c => c.parentHash)), h ≠ h0 →
      (lookupCatch lookup h).isSome = true) :
    (attachedParentHashes (resolveParents lookup casts)).length =
      (jsSetDedup (casts.filterMap (fun c => c.parentHash))).length - 1 ∧
    (resolveParents lookup casts).length = casts.length := by
  have hcl : ∀ c ∈ casts, c.parentCast = none := by
    intro c hc
    have := List.all_eq_true.mp hclean c hc
    simpa [Option.isNone_iff_eq_none] using this
  have hnd : (jsSetDedup (casts.filterMap (fun c => c.parentHash))).Nodup :=
    nodup_jsSetDedupGo _ []
  have hlc0 : lookupCatch lookup h0 = none := by
    unfold lookupCatch
    rw [hfail]
  constructor
  · have hpoint : ∀ c ∈ casts,
        (if (attachParent (buildParentMap lookup (jsSetDedup (casts.filterMap (fun c => c.parentHash)))) c).parentCast.isSome
         then (attachParent (buildParentMap lookup (jsSetDedup (casts.filterMap (fun c => c.parentHash)))) c).parentHash
         else none) =
          c.parentHash.bind (fun h => if (lookupCatch lookup h).isSome then some h else none) := by
      intro c hc
      cases hph : c.parentHash with
      | none =>
        simp only [attachParent, hph, hcl c hc, Option.isSome_none, Bool.false_eq_true,
          if_false, ite_false, Option.bind]
      | some h =>
        have hhp : h ∈ jsSetDedup (casts.filterMap (fun c => c.parentHash)) := by
          rw [mem_jsSetDedup]
          exact List.mem_filterMap.mpr ⟨c, hc, hph⟩
        have hfp : findParent (buildParentMap lookup (jsSetDedup (casts.filterMap (fun c => c.parentHash)))) h =
            lookupCatch lookup h := by
          rw [buildParentMap_eq]
          exact findParent_filterMap_mem lookup h _ hnd hhp
        simp only [attachParent, hph, hfp, Option.bind]
        cases hlc : lookupCatch lookup h with
        | none =>
          simp only [hcl c hc, Option.isSome_none, Bool.false_eq_true, if_false, ite_false, hlc]
        | some pc =>
          simp only [FarcasterCast.parentCast_withParentCast, FarcasterCast.parentHash_withParentCast,
            Option.isSome_some, if_true, ite_true, hph]
    have hsel : attachedParentHashes (resolveParents lookup casts) =
        (jsSetDedup (casts.filterMap (fun c => c.parentHash))).filter
          (fun h => (lookupCatch lookup h).isSome) := by
      unfold attachedParentHashes resolveParents
      rw [filterMap_attach_eq _ _ casts hpoint, jsSetDedup_filter]
    rw [hsel]
    have hfcongr : (jsSetDedup (casts.filterMap (fun c => c.parentHash))).filter
          (fun a => decide (¬ ((lookupCatch lookup a).isSome = true))) =
        (jsSetDedup (casts.filterMap (fun c => c.parentHash))).filter (fun a => a == h0) := by
      apply List.filter_congr
      intro x hx
      by_cases hxh : x = h0
      · subst hxh
        simp [hlc0]
      · simp [hok x hx hxh, hxh]
    have hsplit := List.length_eq_countP_add_countP
      (fun h => (lookupCatch lookup h).isSome) (jsSetDedup (casts.filterMap (fun c => c.parentHash)))
    rw [List.countP_eq_length_filter, List.countP_eq_length_filter, hfcongr] at hsplit
    have hone : ((jsSetDedup (casts.filterMap (fun c => c.parentHash))).filter (fun a => a == h0)).length = 1 := by
      rw [← List.countP_eq_length_filter]
      exact List.count_eq_one_of_mem hnd hmem
    rw [← List.countP_eq_length_filter]
    rw [List.countP_eq_length_filter]
    omega
  · unfold resolveParents
    exact List.length_map _ _

/-- Witness for C6: three casts referencing two distinct parents plus one
cast referencing a third parent whose lookup throws; exactly 2 of the 3
distinct parents end up attached and no cast is dropped. -/
theorem resolveParents_single_failure_witness :
    (attachedParentHashes (resolveParents
        (fun h => if h = "p2" then Except.error () else Except.ok (some (simpleCast h)))
        [FarcasterCast.mk "a" (some "p1") "" "" 0 0 none,
         FarcasterCast.mk "b" (some "p2") "" "" 0 0 none,
         FarcasterCast.mk "c" (some "p3") "" "" 0 0 none,
         FarcasterCast.mk "d" (some "p1") "" "" 0 0 none])).length =
      (jsSetDedup ([FarcasterCast.mk "a" (some "p1") "" "" 0 0 none,
         FarcasterCast.mk "b" (some "p2") "" "" 0 0 none,
         FarcasterCast.mk "c" (some "p3") "" "" 0 0 none,
         FarcasterCast.mk "d" (some "p1") "" "" 0 0 none].filterMap (fun c => c.parentHash))).length - 1 ∧
    (resolveParents
        (fun h => if h = "p2" then Except.error () else Except.ok (some (simpleCast h)))
        [FarcasterCast.mk "a" (some "p1") "" "" 0 0 none,
         FarcasterCast.mk "b" (some "p2") "" "" 0 0 none,
         FarcasterCast.mk "c" (some "p3") "" "" 0 0 none,
         FarcasterCast.mk "d" (some "p1") "" "" 0 0 none]).length =
      ([FarcasterCast.mk "a" (some "p1") "" "" 0 0 none,
         FarcasterCast.mk "b" (some "p2") "" "" 0 0 none,
         FarcasterCast.mk "c" (some "p3") "" "" 0 0 none,
         FarcasterCast.mk "d" (some "p1") "" "" 0 0 none] : List FarcasterCast).length :=
  resolveParents_single_failure _ _ "p2" (by rfl) (by decide)
    (by rfl)
    (by
      intro h hh hne
      have he : jsSetDedup (List.filterMap (fun c => c.parentHash)
          [FarcasterCast.mk "a" (some "p1") "" "" 0 0 none, FarcasterCast.mk "b" (some "p2") "" "" 0 0 none,
           FarcasterCast.mk "c" (some "p3") "" "" 0 0 none, FarcasterCast.mk "d" (some "p1") "" "" 0 0 none]) =
          ["p1", "p2", "p3"] := by rfl
      rw [he] at hh
      simp only [List.mem_cons, List.not_mem_nil, or_false] at hh
      rcases hh with h1 | h1 | h1 <;> subst h1
      · decide
      · exact absurd rfl hne
      · decide)

/-! ## Git repository content fetch (index.ts lines 1853-1865, 2116-2147) -/

/-- Embeds the `GitFile` record fields used by filtering, rendering and
the content fetch (`path`, `name`, `type`, `size`, optional `content`;
`sha` is carried through untouched and omitted). -/
structure GitFile where
  path : String
  name : String := ""
  type : String := "file"
  size : Option Nat := none
  content : Option String := none
deriving DecidableEq, Repr

/-- Embeds `filterTree` (index.ts lines 1853-1865). -/
def filterTree (tree : List GitFile) (includePatterns excludePatterns : Option (List String)) :
    List GitFile :=
  if (includePatterns.getD []).isEmpty && (excludePatterns.getD []).isEmpty then tree
  else tree.filter (fun file => matchesPatterns file.path includePatterns excludePatterns)

/-- Embeds the `textExtensions` allowlist (index.ts line 2118). -/
def GIT_TEXT_EXTENSIONS : List String :=
  [".md", ".txt", ".js", ".ts", ".jsx", ".tsx", ".py", ".go", ".rs", ".java", ".c", ".cpp",
   ".h", ".css", ".html", ".json", ".yaml", ".yml", ".toml", ".xml", ".sh", ".bash", ".zsh",
   ".mjs", ".cjs", ".mts", ".cts", ".vue", ".svelte", ".astro"]

/-- Embeds the content-fetch block of `fetchGitHubRepo` (index.ts lines
2116-2147): from the (already pattern-filtered) tree, keep files whose
tree-reported size is within the ceiling (`params.maxFileSize || 100000`),
keep text extensions, take at most 50, then fetch each body sequentially;
a fetch that throws or a non-ok response contributes no entry
(independent fault tolerance). -/
def fetchRepoContents (tree : List GitFile) (maxFileSize : Option Nat)
    (fetchFile : GitFile → Except Unit (Option String)) : List GitFile :=
  let maxSize := jsOrDefault maxFileSize 100000
  let filesToFetch :=
    ((tree.filter (fun f => f.type == "file" && decide (f.size.getD 0 ≤ maxSize))).filter
      (fun f => GIT_TEXT_EXTENSIONS.any (fun ext => f.path.toLower.endsWith ext))).take 50
  filesToFetch.filterMap (fun file =>
    match fetchFile file with
    | Except.ok (some content) => some { file with content := some content }
    | Except.ok none => none
    | Except.error _ => none)

/-- C9: for every tree, size ceiling and fetch behaviour, every returned
file-content entry corresponds to an entry of the filtered tree whose
tree-reported size respects the (defaulted) max-file-size ceiling, and
the number of entries with fetched bodies never exceeds 50. -/
theorem fetchRepoContents_bounded (tree : List GitFile) (maxFileSize : Option Nat)
    (fetchFile : GitFile → Except Unit (Option String)) :
    (fetchRepoContents tree maxFileSize fetchFile).length ≤ 50 ∧
    ((fetchRepoContents tree maxFileSize fetchFile).all (fun g =>
      tree.any (fun f => f.path == g.path && f.type == "file" && f.size == g.size &&
        decide (f.size.getD 0 ≤ jsOrDefault maxFileSize 100000)))) = true := by
  constructor
  · exact le_trans (List.length_filterMap_le _ _) (List.length_take_le _ _)
  · rw [List.all_eq_true]
    intro g hg
    simp only [fetchRepoContents] at hg
    rw [List.mem_filterMap] at hg
    obtain ⟨file, hfile, hmatch⟩ := hg
    have hfile2 := List.mem_of_mem_take hfile
    rw [List.mem_filter] at hfile2
    obtain ⟨hfile3, _hext⟩ := hfile2
    rw [List.mem_filter] at hfile3
    obtain ⟨hmem, hcond⟩ := hfile3
    obtain ⟨htype, hsize⟩ := Bool.and_eq_true_iff.mp hcond
    have hge : g.path = file.path ∧ g.size = file.size := by
      cases he : fetchFile file with
      | error e =>
        rw [he] at hmatch
        cases hmatch
      | ok r =>
        cases r with
        | none =>
          rw [he] at hmatch
          cases hmatch
        | some content =>
          rw [he] at hmatch
          have := Option.some.inj hmatch
          subst this
          exact ⟨rfl, rfl⟩
    rw [List.any_eq_true]
    refine ⟨file, hmem, ?_⟩
    rw [hge.1, hge.2]
    simp only [htype, hsize]
    simp [beq_iff_eq]

/-! ## Hierarchical tree renderer (index.ts lines 1867-1921)

`formatHierarchicalTree` builds a nested JavaScript object keyed by path
segment (`_isFile` and `_size` marker fields on leaves), then renders it
depth-first, sorting each level with directories first and names
alphabetically.  The nested object becomes `JNode` (marker fields as
record fields, the remaining keys as an insertion-ordered association
list); `localeCompare` becomes code-point comparison; the stable
JavaScript `Array.prototype.sort` with this consistent comparator becomes
insertion sort (also stable); and the depth-first renderer takes explicit
structural fuel so that it evaluates — any fuel beyond the tree depth
gives the rendered text. -/

/-- A node of the nested tree object: the `_isFile` marker (`none` for
intermediate nodes created implicitly), the `_size` marker, and the
child entries in insertion order. -/
inductive JNode where
  | node (isFile : Option Bool) (size : Option Nat) (children : List (String × JNode))

/-- The `_isFile` marker. -/
def JNode.isFile : JNode → Option Bool
  | node f _ _ => f

/-- The `_size` marker. -/
def JNode.size : JNode → Option Nat
  | node _ s _ => s

/-- The child entries. -/
def JNode.children : JNode → List (String × JNode)
  | node _ _ ch => ch

/-- The freshly created `{}` object. -/
def emptyJNode : JNode := JNode.node none none []

/-- Embeds JavaScript property assignment `obj[key] = v`: replace in
place, or append a new key at the end (object key order). -/
def setChild : List (String × JNode) → String → JNode → List (String × JNode)
  | [], key, v => [(key, v)]
  | kv :: rest, key, v => if kv.1 == key then (key, v) :: rest else kv :: setChild rest key v

/-- Embeds JavaScript property access `obj[key]`. -/
def getChild (ch : List (String × JNode)) (key : String) : Option JNode :=
  (ch.find? (fun kv => kv.1 == key)).map (fun kv => kv.2)

/-- Embeds `path.split("/")` (JavaScript split always yields at least one
piece; empty pieces are preserved). -/
def splitSlashGo : List Char → List Char → List String
  | [], cur => [String.mk cur.reverse]
  | '/' :: rest, cur => String.mk cur.reverse :: splitSlashGo rest []
  | c :: rest, cur => splitSlashGo rest (c :: cur)

/-- Splits a path on `/`. -/
def splitSlash (s : String) : List String := splitSlashGo s.toList []

/-- Embeds the per-item insertion loop of `formatHierarchicalTree`
(index.ts lines 1872-1890): walk the parts, skipping empty parts; the
literally-last part becomes a leaf assignment `{_isFile, _size}`
(overwriting whatever was there), other parts descend, creating `{}`
nodes as needed. -/
def insertParts : JNode → List String → Bool → Option Nat → JNode
  | n, [], _, _ => n
  | JNode.node f s ch, part :: rest, isF, sz =>
    if part = "" then insertParts (JNode.node f s ch) rest isF sz
    else if rest.isEmpty then JNode.node f s (setChild ch part (JNode.node (some isF) sz []))
    else
      let child := (getChild ch part).getD emptyJNode
      JNode.node f s (setChild ch part (insertParts child rest isF sz))

/-- Embeds the tree-building fold over the input entries. -/
def buildTree (tree : List GitFile) : JNode :=
  tree.foldl (fun root item =>
    insertParts root (splitSlash item.path) (item.type == "file") item.size) emptyJNode

/-- Code-point lexicographic order on character lists (the embedding of
`localeCompare`; negative result becomes `true`). -/
def charListLt : List Char → List Char → Bool
  | [], [] => false
  | [], _ :: _ => true
  | _ :: _, [] => false
  | a :: as, b :: bs =>
    if a.toNat < b.toNat then true
    else if b.toNat < a.toNat then false
    else charListLt as bs

/-- Non-positive `localeCompare` result, as the sort keeps an entry before
another exactly when the comparator is not positive. -/
def strLe (a b : String) : Bool := a == b || charListLt a.toList b.toList

/-- Embeds `!va._isFile`: a node renders as a directory unless its
`_isFile` marker is set and true. -/
def nodeIsDir (n : JNode) : Bool := !(n.isFile.getD false)

/-- Embeds the comparator of the per-level sort (index.ts lines
1896-1901) as the induced "comparator not positive" relation:
directories strictly before files, names by `localeCompare` within a
group. -/
def entryLe (a b : String × JNode) : Bool :=
  if nodeIsDir a.2 == nodeIsDir b.2 then strLe a.1 b.1 else nodeIsDir a.2

/-- The comparator relation in `Prop` form, for the sort. -/
def EntryRel (a b : String × JNode) : Prop := entryLe a b = true

instance : DecidableRel EntryRel := fun a b => instDecidableEqBool (entryLe a b) true

/-- The marker-key filter applied before sorting (`index.ts` line 1895):
keys beginning with an underscore are the marker fields and are hidden. -/
def entryVisible (kv : String × JNode) : Bool :=
  match kv.1.toList with
  | [] => true
  | c :: _ => !(c == '_')

/-- Embeds `Object.entries(node).filter(...).sort(comparator)`: the
visible entries in sorted order (insertion sort is stable, like the
JavaScript sort, so equal entries keep insertion order — though keys
within one object are distinct, making the order unique anyway). -/
def sortEntries (ch : List (String × JNode)) : List (String × JNode) :=
  List.insertionSort EntryRel (ch.filter entryVisible)

/-- The size suffix of a rendered file line: `_size` must be present and
truthy (a 0-byte size is falsy in JavaScript and prints no suffix). -/
def sizeSuffix (n : JNode) : String :=
  match n.size with
  | some sz => if sz = 0 then "" else " (" ++ toString sz ++ " bytes)"
  | none => ""

/-- Embeds `renderNode` (index.ts lines 1893-1918) with structural fuel:
sort the visible entries, then render each with box-drawing connectors,
recursing into directories with an extended indent.  Fuel `0` renders
nothing; any fuel exceeding the tree depth yields the full text. -/
def renderNodeFuel : Nat → JNode → String → String
  | 0, _, _ => ""
  | fuel + 1, n, pre =>
    let sorted := sortEntries n.children
    let len := sorted.length
    String.join (sorted.enum.map (fun p =>
      let isLast := p.1 == len - 1
      let connector := if isLast then "└── " else "├── "
      let childPrefix := if isLast then "    " else "│   "
      if !(nodeIsDir p.2.2) then
        pre ++ connector ++ p.2.1 ++ sizeSuffix p.2.2 ++ "\n"
      else
        pre ++ connector ++ p.2.1 ++ "/\n" ++ renderNodeFuel fuel p.2.2 (pre ++ childPrefix)))

/-- Fuel strictly exceeding any possible depth of the built tree. -/
def treeFuel (tree : List GitFile) : Nat := 1 + (tree.map (fun f => f.path.length)).sum

/-- Embeds `formatHierarchicalTree` (index.ts lines 1868-1921). -/
def formatHierarchicalTree (tree : List GitFile) : String :=
  renderNodeFuel (treeFuel tree) (buildTree tree) ""

/-! ### Child-map lemmas -/

/-- Lookup on a cons whose head key differs. -/
theorem getChild_cons_of_ne (kv : String × JNode) (rest : List (String × JNode)) (k : String)
    (h : ¬ (kv.1 == k) = true) : getChild (kv :: rest) k = getChild rest k := by
  unfold getChild
  rw [@List.find?_cons_of_neg _ (fun kv => kv.1 == k) kv rest h]

/-- Lookup on a cons whose head key matches. -/
theorem getChild_cons_of_eq (kv : String × JNode) (rest : List (String × JNode)) (k : String)
    (h : (kv.1 == k) = true) : getChild (kv :: rest) k = some kv.2 := by
  unfold getChild
  rw [@List.find?_cons_of_pos _ (fun kv => kv.1 == k) kv rest h]
  rfl

/-- Reading back a written key. -/
theorem getChild_setChild_same : ∀ (ch : List (String × JNode)) (k : String) (v : JNode),
    getChild (setChild ch k v) k = some v := by
  intro ch k v
  induction ch with
  | nil => simp [setChild, getChild]
  | cons kv rest ih =>
    simp only [setChild]
    by_cases he : kv.1 == k
    · rw [if_pos he, getChild_cons_of_eq _ _ _ (by simp)]
    · rw [if_neg he, getChild_cons_of_ne _ _ _ he]
      exact ih

/-- Writing one key does not change another. -/
theorem getChild_setChild_other : ∀ (ch : List (String × JNode)) (k k' : String) (v : JNode),
    ¬ (k' = k) → getChild (setChild ch k v) k' = getChild ch k' := by
  intro ch k k' v hne
  induction ch with
  | nil =>
    simp only [setChild]
    rw [getChild_cons_of_ne _ _ _ (by simp only [beq_iff_eq]; exact fun h => hne h.symm)]
  | cons kv rest ih =>
    simp only [setChild]
    by_cases he : kv.1 == k
    · rw [if_pos he,
        getChild_cons_of_ne _ _ _ (by simp only [beq_iff_eq]; exact fun h => hne h.symm),
        getChild_cons_of_ne _ _ _ (by
          simp only [beq_iff_eq] at he ⊢
          rw [he]
          exact fun h => hne h.symm)]
    · rw [if_neg he]
      by_cases hk : kv.1 == k'
      · rw [getChild_cons_of_eq _ _ _ hk, getChild_cons_of_eq _ _ _ hk]
      · rw [getChild_cons_of_ne _ _ _ hk, getChild_cons_of_ne _ _ _ hk]
        exact ih

/-- Writing an existing key keeps the key sequence. -/
theorem keys_setChild_mem : ∀ (ch : List (String × JNode)) (k : String) (v : JNode),
    k ∈ ch.map Prod.fst → (setChild ch k v).map Prod.fst = ch.map Prod.fst := by
  intro ch k v hmem
  induction ch with
  | nil => cases hmem
  | cons kv rest ih =>
    simp only [setChild]
    by_cases he : kv.1 == k
    · rw [if_pos he]
      simp only [List.map_cons]
      rw [(beq_iff_eq.mp he)]
    · rw [if_neg he]
      simp only [List.map_cons] at hmem ⊢
      rcases List.mem_cons.mp hmem with h1 | h1
      · exact absurd (by simp [h1]) he
      · rw [ih h1]

/-- Writing a new key appends it to the key sequence. -/
theorem keys_setChild_not_mem : ∀ (ch : List (String × JNode)) (k : String) (v : JNode),
    k ∉ ch.map Prod.fst → (setChild ch k v).map Prod.fst = ch.map Prod.fst ++ [k] := by
  intro ch k v hmem
  induction ch with
  | nil => simp [setChild]
  | cons kv rest ih =>
    simp only [setChild]
    by_cases he : kv.1 == k
    · exact absurd (by simp [beq_iff_eq.mp he]) hmem
    · rw [if_neg he]
      simp only [List.map_cons, List.cons_append]
      rw [ih (fun h => hmem (by simp [h]))]

/-- A key is absent exactly when lookup misses. -/
theorem getChild_eq_none_iff : ∀ (ch : List (String × JNode)) (k : String),
    getChild ch k = none ↔ k ∉ ch.map Prod.fst := by
  intro ch k
  induction ch with
  | nil => simp [getChild]
  | cons kv rest ih =>
    by_cases he : kv.1 == k
    · rw [getChild_cons_of_eq _ _ _ he]
      simp [beq_iff_eq.mp he]
    · rw [getChild_cons_of_ne _ _ _ he, ih]
      simp only [List.map_cons, List.mem_cons]
      constructor
      · intro h hin
        rcases hin with h1 | h1
        · exact he (by simp [h1])
        · exact h h1
      · intro h hin
        exact h (Or.inr hin)

/-- A present key yields a value. -/
theorem getChild_isSome_of_mem (ch : List (String × JNode)) (k : String)
    (h : k ∈ ch.map Prod.fst) : ∃ v, getChild ch k = some v := by
  cases hc : getChild ch k with
  | none => exact absurd ((getChild_eq_none_iff ch k).mp hc) (fun hn => hn h)
  | some v => exact ⟨v, rfl⟩

/-- A successful lookup has its key present. -/
theorem mem_keys_of_getChild (ch : List (String × JNode)) (k : String) (v : JNode)
    (h : getChild ch k = some v) : k ∈ ch.map Prod.fst := by
  by_contra hn
  rw [← getChild_eq_none_iff] at hn
  rw [h] at hn
  cases hn

/-- A successful lookup is a member entry. -/
theorem mem_of_getChild (ch : List (String × JNode)) (k : String) (v : JNode)
    (h : getChild ch k = some v) : (k, v) ∈ ch := by
  unfold getChild at h
  cases hf : ch.find? (fun kv => kv.1 == k) with
  | none =>
    rw [hf] at h
    cases h
  | some kv =>
    rw [hf] at h
    have hmem := List.mem_of_find?_eq_some hf
    have hkey1 := List.find?_some hf
    have hkey : kv.1 = k := beq_iff_eq.mp hkey1
    have hval : kv.2 = v := Option.some.inj h
    have hkv : kv = (k, v) := Prod.ext hkey hval
    exact hkv ▸ hmem

/-- With duplicate-free keys, each member entry is what lookup returns. -/
theorem getChild_of_mem_nodup : ∀ (ch : List (String × JNode)) (k : String) (v : JNode),
    (ch.map Prod.fst).Nodup → (k, v) ∈ ch → getChild ch k = some v := by
  intro ch k v hnd hmem
  induction ch with
  | nil => cases hmem
  | cons kv rest ih =>
    simp only [List.map_cons, List.nodup_cons] at hnd
    rcases List.mem_cons.mp hmem with h1 | h1
    · subst h1
      rw [getChild_cons_of_eq _ _ _ (by simp)]
    · have hne : ¬ ((kv.1 == k) = true) := by
        simp only [beq_iff_eq]
        intro he
        exact hnd.1 (he ▸ (List.mem_map.mpr ⟨(k, v), h1, rfl⟩))
      rw [getChild_cons_of_ne _ _ _ hne]
      exact ih hnd.2 h1

/-- Values found in a child map are structurally smaller. -/
theorem sizeOf_lt_of_getChild (ch : List (String × JNode)) (k : String) (v : JNode)
    (h : getChild ch k = some v) : sizeOf v < sizeOf ch := by
  have hmem := mem_of_getChild ch k v h
  have h1 := List.sizeOf_lt_of_mem hmem
  have h2 : sizeOf v < sizeOf (k, v) := by
    simp only [Prod.mk.sizeOf_spec]
    omega
  omega

/-! ### Well-formedness and extensional equivalence of built trees -/

/-- Well-formed node: duplicate-free keys at every level (true of every
JavaScript object, whose keys are unique by construction). -/
inductive NodeWF : JNode → Prop where
  | mk (f : Option Bool) (s : Option Nat) (ch : List (String × JNode))
      (hnd : (ch.map Prod.fst).Nodup)
      (hch : ∀ k v, getChild ch k = some v → NodeWF v) :
      NodeWF (JNode.node f s ch)

/-- Extensional equivalence: equal marker fields, the same key multiset,
and equivalent children at each key.  Two builds of the same entry set
can differ in child insertion order, which the renderer sorts away;
this relation captures exactly that slack. -/
inductive NodeEquiv : JNode → JNode → Prop where
  | mk (f₁ f₂ : Option Bool) (s₁ s₂ : Option Nat) (ch₁ ch₂ : List (String × JNode))
      (hf : f₁ = f₂) (hs : s₁ = s₂)
      (hkeys : (ch₁.map Prod.fst).Perm (ch₂.map Prod.fst))
      (hch : ∀ k v₁ v₂, getChild ch₁ k = some v₁ → getChild ch₂ k = some v₂ → NodeEquiv v₁ v₂) :
      NodeEquiv (JNode.node f₁ s₁ ch₁) (JNode.node f₂ s₂ ch₂)

/-- Bounded-size reflexivity of the equivalence. -/
theorem nodeEquiv_refl_aux : ∀ (n : Nat) (t : JNode), sizeOf t ≤ n → NodeEquiv t t := by
  intro n
  induction n with
  | zero =>
    intro t ht
    cases t with
    | node f s ch =>
      simp only [JNode.node.sizeOf_spec] at ht
      omega
  | succ n ih =>
    intro t ht
    cases t with
    | node f s ch =>
      refine NodeEquiv.mk f f s s ch ch rfl rfl (List.Perm.refl _) ?_
      intro k v₁ v₂ h₁ h₂
      rw [h₁] at h₂
      cases Option.some.inj h₂
      have hsz := sizeOf_lt_of_getChild ch k v₁ h₁
      simp only [JNode.node.sizeOf_spec] at ht
      exact ih v₁ (by omega)

/-- The equivalence is reflexive. -/
theorem nodeEquiv_refl (t : JNode) : NodeEquiv t t :=
  nodeEquiv_refl_aux (sizeOf t) t le_rfl

/-- The equivalence is symmetric. -/
theorem nodeEquiv_symm : ∀ {t₁ t₂ : JNode}, NodeEquiv t₁ t₂ → NodeEquiv t₂ t₁ := by
  intro t₁ t₂ h
  induction h with
  | mk f₁ f₂ s₁ s₂ ch₁ ch₂ hf hs hkeys hch ih =>
    exact NodeEquiv.mk f₂ f₁ s₂ s₁ ch₂ ch₁ hf.symm hs.symm hkeys.symm
      (fun k v₂ v₁ h₂ h₁ => ih k v₁ v₂ h₁ h₂)

/-- The equivalence is transitive. -/
theorem nodeEquiv_trans : ∀ {t₁ t₂ t₃ : JNode}, NodeEquiv t₁ t₂ → NodeEquiv t₂ t₃ → NodeEquiv t₁ t₃ := by
  intro t₁ t₂ t₃ h12
  induction h12 generalizing t₃ with
  | mk f₁ f₂ s₁ s₂ ch₁ ch₂ hf hs hkeys hch ih =>
    intro h23
    cases h23 with
    | mk _ f₃ _ s₃ _ ch₃ hf2 hs2 hkeys2 hch2 =>
      refine NodeEquiv.mk f₁ f₃ s₁ s₃ ch₁ ch₃ (hf.trans hf2) (hs.trans hs2) (hkeys.trans hkeys2) ?_
      intro k v₁ v₃ h₁ h₃
      have hmem2 : k ∈ ch₂.map Prod.fst :=
        hkeys.mem_iff.mp (mem_keys_of_getChild ch₁ k v₁ h₁)
      obtain ⟨v₂, hv₂⟩ := getChild_isSome_of_mem ch₂ k hmem2
      exact ih k v₁ v₂ h₁ hv₂ (hch2 k v₂ v₃ hv₂ h₃)

/-! ### Insertion lemmas -/

/-- Value written at the head segment of an insertion: a fresh leaf when
this segment is literally last, otherwise the recursively updated (or
freshly created) child. -/
def insVal (ch : List (String × JNode)) (x : String) (r : List String) (b : Bool)
    (z : Option Nat) : JNode :=
  if r.isEmpty then JNode.node (some b) z []
  else insertParts ((getChild ch x).getD emptyJNode) r b z

/-- One step of the insertion walk on a nonempty head segment. -/
theorem insertParts_cons (f : Option Bool) (s : Option Nat) (ch : List (String × JNode))
    (x : String) (r : List String) (b : Bool) (z : Option Nat) (hx : ¬ x = "") :
    insertParts (JNode.node f s ch) (x :: r) b z =
      JNode.node f s (setChild ch x (insVal ch x r b z)) := by
  simp only [insertParts, if_neg hx, insVal]
  by_cases hr : r.isEmpty
  · rw [if_pos hr, if_pos hr]
  · rw [if_neg hr, if_neg hr]

/-- The written value does not depend on siblings at other keys. -/
theorem insVal_setChild_other (ch : List (String × JNode)) (x y : String) (w : JNode)
    (r : List String) (b : Bool) (z : Option Nat) (hne : ¬ x = y) :
    insVal (setChild ch y w) x r b z = insVal ch x r b z := by
  unfold insVal
  rw [getChild_setChild_other ch y x w hne]

/-- Overwriting the same key twice keeps only the second write. -/
theorem setChild_setChild_same : ∀ (ch : List (String × JNode)) (k : String) (v w : JNode),
    setChild (setChild ch k v) k w = setChild ch k w := by
  intro ch k v w
  induction ch with
  | nil => simp [setChild]
  | cons kv rest ih =>
    simp only [setChild]
    by_cases he : kv.1 == k
    · rw [if_pos he]
      simp only [setChild, if_pos (by simp : (k == k) = true)]
      rw [if_pos he]
    · rw [if_neg he]
      simp only [setChild, if_neg he]
      rw [ih]

/-- Equivalence is a congruence for writing one key. -/
theorem nodeEquiv_setChild_full (f₁ f₂ : Option Bool) (s₁ s₂ : Option Nat)
    (ch₁ ch₂ : List (String × JNode)) (k : String) (v₁ v₂ : JNode)
    (hf : f₁ = f₂) (hs : s₁ = s₂)
    (hkeys : (ch₁.map Prod.fst).Perm (ch₂.map Prod.fst))
    (hch : ∀ k v₁ v₂, getChild ch₁ k = some v₁ → getChild ch₂ k = some v₂ → NodeEquiv v₁ v₂)
    (hv : NodeEquiv v₁ v₂) :
    NodeEquiv (JNode.node f₁ s₁ (setChild ch₁ k v₁)) (JNode.node f₂ s₂ (setChild ch₂ k v₂)) := by
  refine NodeEquiv.mk _ _ _ _ _ _ hf hs ?_ ?_
  · by_cases hmem : k ∈ ch₁.map Prod.fst
    · rw [keys_setChild_mem ch₁ k v₁ hmem, keys_setChild_mem ch₂ k v₂ (hkeys.mem_iff.mp hmem)]
      exact hkeys
    · rw [keys_setChild_not_mem ch₁ k v₁ hmem,
        keys_setChild_not_mem ch₂ k v₂ (fun hm => hmem (hkeys.mem_iff.mpr hm))]
      exact hkeys.append_right [k]
  · intro k' w₁ w₂ h₁ h₂
    by_cases hk : k' = k
    · subst hk
      rw [getChild_setChild_same] at h₁ h₂
      cases Option.some.inj h₁
      cases Option.some.inj h₂
      exact hv
    · rw [getChild_setChild_other ch₁ k k' v₁ hk] at h₁
      rw [getChild_setChild_other ch₂ k k' v₂ hk] at h₂
      exact hch k' w₁ w₂ h₁ h₂

/-- Equivalence is a congruence for the insertion walk. -/
theorem insertParts_congr : ∀ (ps : List String) (t₁ t₂ : JNode) (isF : Bool) (sz : Option Nat),
    NodeEquiv t₁ t₂ → NodeEquiv (insertParts t₁ ps isF sz) (insertParts t₂ ps isF sz) := by
  intro ps
  induction ps with
  | nil =>
    intro t₁ t₂ isF sz h
    cases t₁
    cases t₂
    exact h
  | cons part rest ih =>
    intro t₁ t₂ isF sz h
    cases h with
    | mk f₁ f₂ s₁ s₂ ch₁ ch₂ hf hs hkeys hch =>
      by_cases hp : part = ""
      · simp only [insertParts, if_pos hp]
        exact ih _ _ isF sz (NodeEquiv.mk f₁ f₂ s₁ s₂ ch₁ ch₂ hf hs hkeys hch)
      · rw [insertParts_cons f₁ s₁ ch₁ part rest isF sz hp,
          insertParts_cons f₂ s₂ ch₂ part rest isF sz hp]
        refine nodeEquiv_setChild_full f₁ f₂ s₁ s₂ ch₁ ch₂ part _ _ hf hs hkeys hch ?_
        unfold insVal
        by_cases hr : rest.isEmpty
        · rw [if_pos hr, if_pos hr]
          exact nodeEquiv_refl _
        · rw [if_neg hr, if_neg hr]
          apply ih
          by_cases hmem : part ∈ ch₁.map Prod.fst
          · obtain ⟨v₁, hv₁⟩ := getChild_isSome_of_mem ch₁ part hmem
            obtain ⟨v₂, hv₂⟩ := getChild_isSome_of_mem ch₂ part (hkeys.mem_iff.mp hmem)
            rw [hv₁, hv₂]
            exact hch part v₁ v₂ hv₁ hv₂
          · rw [(getChild_eq_none_iff ch₁ part).mpr hmem,
              (getChild_eq_none_iff ch₂ part).mpr (fun hm => hmem (hkeys.mem_iff.mpr hm))]
            exact nodeEquiv_refl _

/-- The written value on a non-final segment is the recursive insertion. -/
theorem insVal_nonempty (ch : List (String × JNode)) (x : String) (r : List String)
    (b : Bool) (z : Option Nat) (hr : ¬ r.isEmpty = true) :
    insVal ch x r b z = insertParts ((getChild ch x).getD emptyJNode) r b z := by
  unfold insVal
  rw [if_neg hr]

/-- Writes at two distinct keys commute up to equivalence (new keys are
appended in a different order, a permutation of the key sequence). -/
theorem nodeEquiv_setChild_swap (f : Option Bool) (s : Option Nat)
    (ch : List (String × JNode)) (p q : String) (vp vq : JNode) (hne : ¬ p = q) :
    NodeEquiv (JNode.node f s (setChild (setChild ch p vp) q vq))
      (JNode.node f s (setChild (setChild ch q vq) p vp)) := by
  refine NodeEquiv.mk _ _ _ _ _ _ rfl rfl ?_ ?_
  · by_cases hp : p ∈ ch.map Prod.fst <;> by_cases hq : q ∈ ch.map Prod.fst
    · rw [keys_setChild_mem _ q vq (by rw [keys_setChild_mem _ p vp hp]; exact hq),
        keys_setChild_mem _ p vp hp,
        keys_setChild_mem _ p vp (by rw [keys_setChild_mem _ q vq hq]; exact hp),
        keys_setChild_mem _ q vq hq]
    · rw [keys_setChild_not_mem _ q vq (by rw [keys_setChild_mem _ p vp hp]; exact hq),
        keys_setChild_mem _ p vp hp,
        keys_setChild_mem _ p vp (by rw [keys_setChild_not_mem _ q vq hq]; simp [hp]),
        keys_setChild_not_mem _ q vq hq]
    · rw [keys_setChild_mem _ q vq (by rw [keys_setChild_not_mem _ p vp hp]; simp [hq]),
        keys_setChild_not_mem _ p vp hp,
        keys_setChild_not_mem _ p vp (by
          rw [keys_setChild_mem _ q vq hq]
          exact hp),
        keys_setChild_mem _ q vq hq]
    · rw [keys_setChild_not_mem _ q vq (by
          rw [keys_setChild_not_mem _ p vp hp]
          simp only [List.mem_append, List.mem_singleton]
          rintro (h | h)
          · exact hq h
          · exact hne h.symm),
        keys_setChild_not_mem _ p vp hp,
        keys_setChild_not_mem _ p vp (by
          rw [keys_setChild_not_mem _ q vq hq]
          simp only [List.mem_append, List.mem_singleton]
          rintro (h | h)
          · exact hp h
          · exact hne h),
        keys_setChild_not_mem _ q vq hq]
      rw [List.append_assoc, List.append_assoc]
      exact List.Perm.append_left _ (List.perm_append_comm)
  · intro k w₁ w₂ h₁ h₂
    by_cases hkp : k = p
    · subst hkp
      rw [getChild_setChild_other _ q k vq hne, getChild_setChild_same] at h₁
      rw [getChild_setChild_same] at h₂
      cases Option.some.inj h₁
      cases Option.some.inj h₂
      exact nodeEquiv_refl _
    · by_cases hkq : k = q
      · subst hkq
        rw [getChild_setChild_same] at h₁
        rw [getChild_setChild_other _ p k vp (fun h => hne h.symm), getChild_setChild_same] at h₂
        cases Option.some.inj h₁
        cases Option.some.inj h₂
        exact nodeEquiv_refl _
      · rw [getChild_setChild_other _ q k vq hkq, getChild_setChild_other _ p k vp hkp] at h₁
        rw [getChild_setChild_other _ p k vp hkp, getChild_setChild_other _ q k vq hkq] at h₂
        rw [h₁] at h₂
        cases Option.some.inj h₂
        exact nodeEquiv_refl _

/-- Equivalence is a congruence when rewriting a single key of one map. -/
theorem nodeEquiv_setChild_congr (f : Option Bool) (s : Option Nat)
    (ch : List (String × JNode)) (k : String) (v₁ v₂ : JNode) (hv : NodeEquiv v₁ v₂) :
    NodeEquiv (JNode.node f s (setChild ch k v₁)) (JNode.node f s (setChild ch k v₂)) := by
  refine nodeEquiv_setChild_full f f s s ch ch k v₁ v₂ rfl rfl (List.Perm.refl _) ?_ hv
  intro k' w₁ w₂ h₁ h₂
  rw [h₁] at h₂
  cases Option.some.inj h₂
  exact nodeEquiv_refl _

/-- Insertions along two paths, neither a segment-prefix of the other and
without empty segments, commute up to equivalence. -/
theorem insertParts_comm : ∀ (ps qs : List String) (t : JNode) (b₁ b₂ : Bool)
    (z₁ z₂ : Option Nat), "" ∉ ps → "" ∉ qs → ¬ ps <+: qs → ¬ qs <+: ps →
    NodeEquiv (insertParts (insertParts t ps b₁ z₁) qs b₂ z₂)
      (insertParts (insertParts t qs b₂ z₂) ps b₁ z₁) := by
  intro ps
  induction ps with
  | nil =>
    intro qs t b₁ b₂ z₁ z₂ hep heq hpq hqp
    exact absurd (List.nil_prefix) hpq
  | cons p ps' ih =>
    intro qs t b₁ b₂ z₁ z₂ hep heq hpq hqp
    cases qs with
    | nil => exact absurd (List.nil_prefix) hqp
    | cons q qs' =>
      have hpne : ¬ p = "" := fun h => hep (by simp [h])
      have hqne : ¬ q = "" := fun h => heq (by simp [h])
      have hep' : "" ∉ ps' := fun h => hep (List.mem_cons_of_mem p h)
      have heq' : "" ∉ qs' := fun h => heq (List.mem_cons_of_mem q h)
      cases t with
      | node f s ch =>
        by_cases hpq2 : p = q
        · subst hpq2
          have hps' : ¬ ps'.isEmpty = true := by
            intro h
            rw [List.isEmpty_iff.mp h] at hpq
            exact hpq ⟨qs', rfl⟩
          have hqs' : ¬ qs'.isEmpty = true := by
            intro h
            rw [List.isEmpty_iff.mp h] at hqp
            exact hqp ⟨ps', rfl⟩
          have hpre1 : ¬ ps' <+: qs' := by
            rintro ⟨t, ht⟩
            exact hpq ⟨t, by simp [ht]⟩
          have hpre2 : ¬ qs' <+: ps' := by
            rintro ⟨t, ht⟩
            exact hqp ⟨t, by simp [ht]⟩
          rw [insertParts_cons f s ch p ps' b₁ z₁ hpne,
            insertParts_cons f s (setChild ch p (insVal ch p ps' b₁ z₁)) p qs' b₂ z₂ hpne,
            insertParts_cons f s ch p qs' b₂ z₂ hpne,
            insertParts_cons f s (setChild ch p (insVal ch p qs' b₂ z₂)) p ps' b₁ z₁ hpne,
            setChild_setChild_same, setChild_setChild_same,
            insVal_nonempty (setChild ch p (insVal ch p ps' b₁ z₁)) p qs' b₂ z₂ hqs',
            getChild_setChild_same, Option.getD_some,
            insVal_nonempty (setChild ch p (insVal ch p qs' b₂ z₂)) p ps' b₁ z₁ hps',
            getChild_setChild_same, Option.getD_some,
            insVal_nonempty ch p ps' b₁ z₁ hps', insVal_nonempty ch p qs' b₂ z₂ hqs']
          exact nodeEquiv_setChild_congr f s ch p _ _
            (ih qs' _ b₁ b₂ z₁ z₂ hep' heq' hpre1 hpre2)
        · rw [insertParts_cons f s ch p ps' b₁ z₁ hpne,
            insertParts_cons f s (setChild ch p (insVal ch p ps' b₁ z₁)) q qs' b₂ z₂ hqne,
            insVal_setChild_other ch q p (insVal ch p ps' b₁ z₁) qs' b₂ z₂ (fun h => hpq2 h.symm),
            insertParts_cons f s ch q qs' b₂ z₂ hqne,
            insertParts_cons f s (setChild ch q (insVal ch q qs' b₂ z₂)) p ps' b₁ z₁ hpne,
            insVal_setChild_other ch p q (insVal ch q qs' b₂ z₂) ps' b₁ z₁ hpq2]
          exact nodeEquiv_setChild_swap f s ch p q _ _ hpq2

/-- The fresh object is well formed. -/
theorem nodeWF_empty : NodeWF emptyJNode :=
  NodeWF.mk none none [] (by simp) (fun k v h => by simp [getChild] at h)

/-- A fresh leaf is well formed. -/
theorem nodeWF_leaf (b : Bool) (z : Option Nat) : NodeWF (JNode.node (some b) z []) :=
  NodeWF.mk (some b) z [] (by simp) (fun k v h => by simp [getChild] at h)

/-- The insertion walk preserves well-formedness. -/
theorem insertParts_wf : ∀ (ps : List String) (t : JNode) (b : Bool) (z : Option Nat),
    NodeWF t → NodeWF (insertParts t ps b z) := by
  intro ps
  induction ps with
  | nil =>
    intro t b z h
    cases t
    exact h
  | cons x r ih =>
    intro t b z h
    cases h with
    | mk f s ch hnd hch =>
      by_cases hx : x = ""
      · simp only [insertParts, if_pos hx]
        exact ih _ b z (NodeWF.mk f s ch hnd hch)
      · rw [insertParts_cons f s ch x r b z hx]
        refine NodeWF.mk f s _ ?_ ?_
        · by_cases hmem : x ∈ ch.map Prod.fst
          · rw [keys_setChild_mem _ _ _ hmem]
            exact hnd
          · rw [keys_setChild_not_mem _ _ _ hmem, List.nodup_append]
            refine ⟨hnd, List.nodup_singleton x, ?_⟩
            intro a ha hb
            rw [List.mem_singleton] at hb
            exact hmem (hb ▸ ha)
        · intro k v hv
          by_cases hk : k = x
          · subst hk
            rw [getChild_setChild_same] at hv
            cases Option.some.inj hv
            unfold insVal
            by_cases hr : r.isEmpty
            · rw [if_pos hr]
              exact nodeWF_leaf b z
            · rw [if_neg hr]
              apply ih
              cases hg : getChild ch k with
              | none =>
                simpa [hg] using nodeWF_empty
              | some w =>
                simp only [hg, Option.getD_some]
                exact hch k w hg
          · rw [getChild_setChild_other _ _ _ _ hk] at hv
            exact hch k v hv

/-- Per-entry insertion step of the build. -/
def insertItem (root : JNode) (item : GitFile) : JNode :=
  insertParts root (splitSlash item.path) (item.type == "file") item.size

/-- Restatement of `buildTree` in terms of the insertion step. -/
theorem buildTree_eq_foldl (tree : List GitFile) :
    buildTree tree = tree.foldl insertItem emptyJNode := rfl

/-- Every built tree is well formed. -/
theorem buildTree_wf (tree : List GitFile) : NodeWF (buildTree tree) := by
  rw [buildTree_eq_foldl]
  have hfold : ∀ (l : List GitFile) (t : JNode), NodeWF t → NodeWF (l.foldl insertItem t) := by
    intro l
    induction l with
    | nil => intro t h; exact h
    | cons x xs ih =>
      intro t h
      exact ih _ (insertParts_wf _ _ _ _ h)
  exact hfold tree emptyJNode nodeWF_empty

/-- Equivalence is a congruence for the whole build fold. -/
theorem foldl_insertItem_congr : ∀ (l : List GitFile) (t₁ t₂ : JNode), NodeEquiv t₁ t₂ →
    NodeEquiv (l.foldl insertItem t₁) (l.foldl insertItem t₂) := by
  intro l
  induction l with
  | nil => intro t₁ t₂ h; exact h
  | cons x xs ih =>
    intro t₁ t₂ h
    exact ih _ _ (insertParts_congr _ _ _ _ _ h)

/-- Compatibility of two entries: neither path is a segment-prefix of the
other (this also rules out equal paths). -/
def PathCompat (f g : GitFile) : Prop :=
  ¬ splitSlash f.path <+: splitSlash g.path ∧ ¬ splitSlash g.path <+: splitSlash f.path

/-- Builds of permuted entry lists are equivalent, provided no entry path
has empty segments and no entry path is a segment-prefix of another. -/
theorem buildTree_perm (l₁ l₂ : List GitFile) (hp : l₁.Perm l₂)
    (hok : ∀ f ∈ l₁, "" ∉ splitSlash f.path)
    (hpair : l₁.Pairwise PathCompat) :
    NodeEquiv (buildTree l₁) (buildTree l₂) := by
  rw [buildTree_eq_foldl, buildTree_eq_foldl]
  have hsym : ∀ {a b : GitFile}, PathCompat a b → PathCompat b a :=
    fun h => ⟨h.2, h.1⟩
  have main : ∀ {m₁ m₂ : List GitFile}, m₁.Perm m₂ →
      (∀ f ∈ m₁, "" ∉ splitSlash f.path) → m₁.Pairwise PathCompat →
      ∀ t : JNode, NodeEquiv (m₁.foldl insertItem t) (m₂.foldl insertItem t) := by
    intro m₁ m₂ hperm
    induction hperm with
    | nil =>
      intro hok hpair t
      exact nodeEquiv_refl _
    | cons x hsub ih =>
      intro hok hpair t
      exact ih (fun f hf => hok f (List.mem_cons_of_mem x hf)) (List.pairwise_cons.mp hpair).2 _
    | swap x y l =>
      intro hok hpair t
      have hcomp : PathCompat y x := (List.pairwise_cons.mp hpair).1 x (List.mem_cons_self x l)
      have hoky : "" ∉ splitSlash y.path := hok y (List.mem_cons_self y (x :: l))
      have hokx : "" ∉ splitSlash x.path := hok x (List.mem_cons_of_mem y (List.mem_cons_self x l))
      simp only [List.foldl_cons]
      apply foldl_insertItem_congr
      exact insertParts_comm _ _ t _ _ _ _ hoky hokx hcomp.1 hcomp.2
    | trans h12 h23 ih12 ih23 =>
      intro hok hpair t
      refine nodeEquiv_trans (ih12 hok hpair t) (ih23 ?_ ?_ t)
      · intro f hf
        exact hok f (h12.mem_iff.mpr hf)
      · exact (h12.pairwise_iff hsym).mp hpair
  exact main hp hok hpair emptyJNode

/-! ### Comparator order lemmas -/

/-- Transitivity of the code-point order. -/
theorem charListLt_trans : ∀ (a b c : List Char), charListLt a b = true →
    charListLt b c = true → charListLt a c = true := by
  intro a
  induction a with
  | nil =>
    intro b c hab hbc
    cases b with
    | nil => simp [charListLt] at hab
    | cons y ys =>
      cases c with
      | nil => simp [charListLt] at hbc
      | cons z zs => rfl
  | cons x xs ih =>
    intro b c hab hbc
    cases b with
    | nil => simp [charListLt] at hab
    | cons y ys =>
      cases c with
      | nil => simp [charListLt] at hbc
      | cons z zs =>
        simp only [charListLt] at hab hbc ⊢
        split_ifs at hab hbc ⊢ <;>
          first
            | rfl
            | omega
            | (exact ih ys zs hab hbc)
            | simp_all
            | exact absurd hab (by simp)
            | exact absurd hbc (by simp)

/-- Asymmetry of the code-point order. -/
theorem charListLt_asymm : ∀ (a b : List Char), charListLt a b = true →
    charListLt b a = true → False := by
  intro a
  induction a with
  | nil =>
    intro b hab hba
    cases b with
    | nil => simp [charListLt] at hab
    | cons y ys => simp [charListLt] at hba
  | cons x xs ih =>
    intro b hab hba
    cases b with
    | nil => simp [charListLt] at hab
    | cons y ys =>
      simp only [charListLt] at hab hba
      split_ifs at hab hba <;>
        first
          | omega
          | (exact ih ys hab hba)
          | simp_all

/-- Two lists neither below the other are equal. -/
theorem charListLt_eq_of_not_lt : ∀ (a b : List Char), charListLt a b = false →
    charListLt b a = false → a = b := by
  intro a
  induction a with
  | nil =>
    intro b hab hba
    cases b with
    | nil => rfl
    | cons y ys => simp [charListLt] at hab
  | cons x xs ih =>
    intro b hab hba
    cases b with
    | nil => simp [charListLt] at hba
    | cons y ys =>
      simp only [charListLt] at hab hba
      by_cases h1 : x.toNat < y.toNat
      · rw [if_pos h1] at hab
        cases hab
      · rw [if_neg h1] at hab
        by_cases h2 : y.toNat < x.toNat
        · rw [if_pos h2] at hba
          cases hba
        · rw [if_neg h2] at hab
          rw [if_neg h2, if_neg h1] at hba
          have hx : x = y := by
            have h3 := Char.ofNat_toNat x
            have h4 := Char.ofNat_toNat y
            have h5 : x.toNat = y.toNat := by omega
            rw [← h3, h5, h4]
          rw [hx, ih ys hab hba]

/-- Antisymmetry of the non-positive-comparator relation on strings. -/
theorem strLe_antisymm (a b : String) (hab : strLe a b = true) (hba : strLe b a = true) :
    a = b := by
  unfold strLe at hab hba
  rcases (Bool.or_eq_true _ _).mp hab with h | h
  · exact beq_iff_eq.mp h
  · rcases (Bool.or_eq_true _ _).mp hba with h2 | h2
    · exact (beq_iff_eq.mp h2).symm
    · exact absurd h (fun hh => charListLt_asymm _ _ hh h2)

/-- Totality of the non-positive-comparator relation on strings. -/
theorem strLe_total (a b : String) : strLe a b = true ∨ strLe b a = true := by
  by_cases he : a = b
  · subst he
    left
    unfold strLe
    simp
  · cases hab : charListLt a.toList b.toList
    · cases hba : charListLt b.toList a.toList
      · exact absurd (charListLt_eq_of_not_lt _ _ hab hba)
          (fun h => he (by cases a; cases b; exact congrArg String.mk (by simpa using h)))
      · right
        unfold strLe
        rw [hba]
        simp
    · left
      unfold strLe
      rw [hab]
      simp

/-- Transitivity of the non-positive-comparator relation on strings. -/
theorem strLe_trans (a b c : String) (h1 : strLe a b = true) (h2 : strLe b c = true) :
    strLe a c = true := by
  rcases (Bool.or_eq_true _ _).mp h1 with ha | ha
  · rw [beq_iff_eq.mp ha]
    exact h2
  · rcases (Bool.or_eq_true _ _).mp h2 with hb | hb
    · rw [← beq_iff_eq.mp hb]
      unfold strLe
      rw [ha]
      simp
    · unfold strLe
      rw [charListLt_trans _ _ _ ha hb]
      simp

/-- Transitivity of the entry comparator relation. -/
theorem entryLe_trans (a b c : String × JNode) (h1 : entryLe a b = true)
    (h2 : entryLe b c = true) : entryLe a c = true := by
  unfold entryLe at h1 h2 ⊢
  rcases hda : nodeIsDir a.2 <;> rcases hdb : nodeIsDir b.2 <;> rcases hdc : nodeIsDir c.2 <;>
    simp_all <;> exact strLe_trans _ _ _ h1 h2

/-- Totality of the entry comparator relation. -/
theorem entryLe_total (a b : String × JNode) : entryLe a b = true ∨ entryLe b a = true := by
  unfold entryLe
  rcases hda : nodeIsDir a.2 <;> rcases hdb : nodeIsDir b.2 <;> simp_all
  · exact strLe_total a.1 b.1
  · exact strLe_total a.1 b.1

instance : IsTrans (String × JNode) EntryRel :=
  ⟨fun a b c h1 h2 => entryLe_trans a b c h1 h2⟩

instance : IsTotal (String × JNode) EntryRel :=
  ⟨fun a b => entryLe_total a b⟩

/-- The comparator seen through the sort-relevant projection of an entry
(the directory flag and the name). -/
def pairLe (a b : Bool × String) : Bool := if a.1 == b.1 then strLe a.2 b.2 else a.1

/-- Sort-relevant projection of an entry. -/
def keyDir (kv : String × JNode) : Bool × String := (nodeIsDir kv.2, kv.1)

/-- The entry comparator factors through the projection. -/
theorem entryLe_eq_pairLe (a b : String × JNode) :
    entryLe a b = pairLe (keyDir a) (keyDir b) := by
  unfold entryLe pairLe keyDir
  rcases hda : nodeIsDir a.2 <;> rcases hdb : nodeIsDir b.2 <;> simp

/-- A sorted sequence of projections with duplicate-free names is the
unique sorted arrangement of its multiset. -/
theorem pairLe_sorted_perm_eq : ∀ (l₁ l₂ : List (Bool × String)), l₁.Perm l₂ →
    (l₁.map Prod.snd).Nodup →
    l₁.Pairwise (fun a b => pairLe a b = true) →
    l₂.Pairwise (fun a b => pairLe a b = true) → l₁ = l₂ := by
  intro l₁
  induction l₁ with
  | nil =>
    intro l₂ hp hnd hs₁ hs₂
    exact (hp.symm.eq_nil).symm
  | cons a t₁ ih =>
    intro l₂ hp hnd hs₁ hs₂
    cases l₂ with
    | nil => exact absurd hp.eq_nil (by simp)
    | cons b t₂ =>
      by_cases hab : a = b
      · subst hab
        have hnd' : (t₁.map Prod.snd).Nodup := by
          simp only [List.map_cons, List.nodup_cons] at hnd
          exact hnd.2
        exact congrArg (List.cons a)
          (ih t₂ hp.cons_inv hnd' (List.pairwise_cons.mp hs₁).2 (List.pairwise_cons.mp hs₂).2)
      · have hamem : a ∈ t₂ := by
          have hm := hp.mem_iff.mp (List.mem_cons_self a t₁)
          rcases List.mem_cons.mp hm with h | h
          · exact absurd h hab
          · exact h
        have hbmem : b ∈ t₁ := by
          have hm := hp.mem_iff.mpr (List.mem_cons_self b t₂)
          rcases List.mem_cons.mp hm with h | h
          · exact absurd h.symm hab
          · exact h
        have h1 : pairLe a b = true := (List.pairwise_cons.mp hs₁).1 b hbmem
        have h2 : pairLe b a = true := (List.pairwise_cons.mp hs₂).1 a hamem
        have hkeys : a.2 ≠ b.2 := by
          intro he
          simp only [List.map_cons, List.nodup_cons] at hnd
          exact hnd.1 (he ▸ List.mem_map.mpr ⟨b, hbmem, rfl⟩)
        exfalso
        unfold pairLe at h1 h2
        by_cases hd : (a.1 == b.1) = true
        · rw [if_pos hd] at h1
          rw [if_pos (by
            simp only [beq_iff_eq] at hd ⊢
            exact hd.symm)] at h2
          exact hkeys (strLe_antisymm _ _ h1 h2)
        · rw [if_neg hd] at h1
          rw [if_neg (by
            simp only [beq_iff_eq] at hd ⊢
            exact fun h => hd h.symm)] at h2
          simp only [beq_iff_eq] at hd
          cases hx : a.1 <;> cases hy : b.1 <;> simp_all

/-- Equivalent nodes carry the same `_isFile` marker. -/
theorem nodeEquiv_isFile : ∀ {t₁ t₂ : JNode}, NodeEquiv t₁ t₂ → t₁.isFile = t₂.isFile := by
  intro t₁ t₂ h
  cases h with
  | mk f₁ f₂ s₁ s₂ ch₁ ch₂ hf hs hkeys hch => exact hf

/-- Equivalent nodes carry the same `_size` marker. -/
theorem nodeEquiv_size : ∀ {t₁ t₂ : JNode}, NodeEquiv t₁ t₂ → t₁.size = t₂.size := by
  intro t₁ t₂ h
  cases h with
  | mk f₁ f₂ s₁ s₂ ch₁ ch₂ hf hs hkeys hch => exact hs

/-- Equivalent nodes render as the same kind (directory or file). -/
theorem nodeEquiv_isDir {t₁ t₂ : JNode} (h : NodeEquiv t₁ t₂) : nodeIsDir t₁ = nodeIsDir t₂ := by
  unfold nodeIsDir
  rw [nodeEquiv_isFile h]

/-- Equivalent nodes render the same size suffix. -/
theorem nodeEquiv_sizeSuffix {t₁ t₂ : JNode} (h : NodeEquiv t₁ t₂) :
    sizeSuffix t₁ = sizeSuffix t₂ := by
  unfold sizeSuffix
  rw [nodeEquiv_size h]

/-- Visibility of an entry depends only on its key. -/
def visKey (k : String) : Bool :=
  match k.toList with
  | [] => true
  | c :: _ => !(c == '_')

/-- The filter keeps the keys passing the key-only visibility test. -/
theorem keys_filter_visible (ch : List (String × JNode)) :
    (ch.filter entryVisible).map Prod.fst = (ch.map Prod.fst).filter visKey := by
  rw [List.filter_map]
  exact congrArg (List.map Prod.fst) (List.filter_congr (fun kv _ => rfl)).symm

/-- Filtering preserves duplicate-freeness of the keys. -/
theorem keys_filter_nodup (ch : List (String × JNode)) (hnd : (ch.map Prod.fst).Nodup) :
    ((ch.filter entryVisible).map Prod.fst).Nodup := by
  rw [keys_filter_visible]
  exact (List.filter_sublist _).nodup hnd

/-- The sort-relevant projections of the visible entries. -/
def dirKeys (ch : List (String × JNode)) : List (Bool × String) :=
  (ch.filter entryVisible).map keyDir

/-- Membership in the projections, characterised through `getChild`. -/
theorem mem_dirKeys (ch : List (String × JNode)) (hnd : (ch.map Prod.fst).Nodup) (b : Bool)
    (k : String) : (b, k) ∈ dirKeys ch ↔
      visKey k = true ∧ ∃ v, getChild ch k = some v ∧ nodeIsDir v = b := by
  constructor
  · intro h
    rcases List.mem_map.mp h with ⟨kv, hmem, hkd⟩
    rcases kv with ⟨k', v⟩
    unfold keyDir at hkd
    have hk : k' = k := congrArg Prod.snd hkd
    have hb : nodeIsDir v = b := congrArg Prod.fst hkd
    subst hk
    rcases List.mem_filter.mp hmem with ⟨hmem', hvis⟩
    exact ⟨hvis, v, getChild_of_mem_nodup ch k' v hnd hmem', hb⟩
  · rintro ⟨hvis, v, hget, hdir⟩
    have hmem := mem_of_getChild ch k v hget
    refine List.mem_map.mpr ⟨(k, v), List.mem_filter.mpr ⟨hmem, hvis⟩, ?_⟩
    unfold keyDir
    rw [hdir]

/-- The projections are duplicate-free when the keys are. -/
theorem dirKeys_nodup (ch : List (String × JNode)) (hnd : (ch.map Prod.fst).Nodup) :
    (dirKeys ch).Nodup := by
  apply List.Nodup.of_map Prod.snd
  have hmm : (dirKeys ch).map Prod.snd = (ch.filter entryVisible).map Prod.fst := by
    unfold dirKeys
    rw [List.map_map]
    exact List.map_congr_left (fun kv _ => rfl)
  rw [hmm]
  exact keys_filter_nodup ch hnd

/-- Extensionally equivalent child maps have the same multiset of
sort-relevant projections. -/
theorem dirKeys_perm (ch₁ ch₂ : List (String × JNode))
    (hnd₁ : (ch₁.map Prod.fst).Nodup) (hnd₂ : (ch₂.map Prod.fst).Nodup)
    (hkeys : (ch₁.map Prod.fst).Perm (ch₂.map Prod.fst))
    (hch : ∀ k v₁ v₂, getChild ch₁ k = some v₁ → getChild ch₂ k = some v₂ → NodeEquiv v₁ v₂) :
    (dirKeys ch₁).Perm (dirKeys ch₂) := by
  rw [List.perm_ext_iff_of_nodup (dirKeys_nodup ch₁ hnd₁) (dirKeys_nodup ch₂ hnd₂)]
  rintro ⟨b, k⟩
  constructor
  · intro h1
    rcases (mem_dirKeys ch₁ hnd₁ b k).mp h1 with ⟨hvis, v₁, hget₁, hdir₁⟩
    have hk2 : k ∈ ch₂.map Prod.fst := hkeys.mem_iff.mp (mem_keys_of_getChild ch₁ k v₁ hget₁)
    rcases getChild_isSome_of_mem ch₂ k hk2 with ⟨v₂, hget₂⟩
    refine (mem_dirKeys ch₂ hnd₂ b k).mpr ⟨hvis, v₂, hget₂, ?_⟩
    rw [← nodeEquiv_isDir (hch k v₁ v₂ hget₁ hget₂)]
    exact hdir₁
  · intro h2
    rcases (mem_dirKeys ch₂ hnd₂ b k).mp h2 with ⟨hvis, v₂, hget₂, hdir₂⟩
    have hk1 : k ∈ ch₁.map Prod.fst := hkeys.mem_iff.mpr (mem_keys_of_getChild ch₂ k v₂ hget₂)
    rcases getChild_isSome_of_mem ch₁ k hk1 with ⟨v₁, hget₁⟩
    refine (mem_dirKeys ch₁ hnd₁ b k).mpr ⟨hvis, v₁, hget₁, ?_⟩
    rw [nodeEquiv_isDir (hch k v₁ v₂ hget₁ hget₂)]
    exact hdir₂

/-- Entries of the sorted list come from the child map. -/
theorem mem_sortEntries (ch : List (String × JNode)) (a : String × JNode)
    (h : a ∈ sortEntries ch) : a ∈ ch :=
  (List.mem_filter.mp ((List.perm_insertionSort EntryRel (ch.filter entryVisible)).mem_iff.mp h)).1

/-- Equivalent child maps sort to entry lists with identical projection
sequences: same names, same kinds, in the same positions. -/
theorem sortEntries_keyDir_eq (ch₁ ch₂ : List (String × JNode))
    (hnd₁ : (ch₁.map Prod.fst).Nodup) (hnd₂ : (ch₂.map Prod.fst).Nodup)
    (hkeys : (ch₁.map Prod.fst).Perm (ch₂.map Prod.fst))
    (hch : ∀ k v₁ v₂, getChild ch₁ k = some v₁ → getChild ch₂ k = some v₂ → NodeEquiv v₁ v₂) :
    (sortEntries ch₁).map keyDir = (sortEntries ch₂).map keyDir := by
  have hsnd : ∀ ch : List (String × JNode),
      ((sortEntries ch).map keyDir).map Prod.snd = (sortEntries ch).map Prod.fst := by
    intro ch
    rw [List.map_map]
    exact List.map_congr_left (fun kv _ => rfl)
  apply pairLe_sorted_perm_eq
  · have p₁ : ((sortEntries ch₁).map keyDir).Perm (dirKeys ch₁) :=
      (List.perm_insertionSort EntryRel (ch₁.filter entryVisible)).map keyDir
    have p₂ : ((sortEntries ch₂).map keyDir).Perm (dirKeys ch₂) :=
      (List.perm_insertionSort EntryRel (ch₂.filter entryVisible)).map keyDir
    exact (p₁.trans (dirKeys_perm ch₁ ch₂ hnd₁ hnd₂ hkeys hch)).trans p₂.symm
  · rw [hsnd ch₁]
    exact ((List.perm_insertionSort EntryRel (ch₁.filter entryVisible)).map Prod.fst).nodup_iff.mpr
      (keys_filter_nodup ch₁ hnd₁)
  · apply List.pairwise_map.mpr
    exact (List.sorted_insertionSort EntryRel (ch₁.filter entryVisible)).imp
      (fun h => by rw [← entryLe_eq_pairLe]; exact h)
  · apply List.pairwise_map.mpr
    exact (List.sorted_insertionSort EntryRel (ch₂.filter entryVisible)).imp
      (fun h => by rw [← entryLe_eq_pairLe]; exact h)

/-- Two entry lists with identical projection sequences and pointwise
equivalent values at equal keys are related entrywise. -/
theorem forall2_of_keyDir_eq : ∀ (l₁ l₂ : List (String × JNode)),
    l₁.map keyDir = l₂.map keyDir →
    (∀ a, a ∈ l₁ → ∀ b, b ∈ l₂ → a.1 = b.1 → NodeEquiv a.2 b.2) →
    List.Forall₂ (fun a b => a.1 = b.1 ∧ NodeEquiv a.2 b.2) l₁ l₂ := by
  intro l₁
  induction l₁ with
  | nil =>
    intro l₂ hmap hpt
    cases l₂ with
    | nil => exact List.Forall₂.nil
    | cons b t₂ => exact absurd hmap (by simp)
  | cons a t₁ ih =>
    intro l₂ hmap hpt
    cases l₂ with
    | nil => exact absurd hmap (by simp)
    | cons b t₂ =>
      simp only [List.map_cons, List.cons.injEq] at hmap
      have hk : a.1 = b.1 := congrArg Prod.snd hmap.1
      exact List.Forall₂.cons
        ⟨hk, hpt a (List.mem_cons_self a t₁) b (List.mem_cons_self b t₂) hk⟩
        (ih t₂ hmap.2
          (fun x hx y hy => hpt x (List.mem_cons_of_mem a hx) y (List.mem_cons_of_mem b hy)))

/-- The full entrywise correspondence between the sorted visible entries
of equivalent child maps. -/
theorem sortEntries_forall2 (ch₁ ch₂ : List (String × JNode))
    (hnd₁ : (ch₁.map Prod.fst).Nodup) (hnd₂ : (ch₂.map Prod.fst).Nodup)
    (hkeys : (ch₁.map Prod.fst).Perm (ch₂.map Prod.fst))
    (hch : ∀ k v₁ v₂, getChild ch₁ k = some v₁ → getChild ch₂ k = some v₂ → NodeEquiv v₁ v₂) :
    List.Forall₂ (fun a b => a.1 = b.1 ∧ NodeEquiv a.2 b.2) (sortEntries ch₁) (sortEntries ch₂) := by
  apply forall2_of_keyDir_eq _ _ (sortEntries_keyDir_eq ch₁ ch₂ hnd₁ hnd₂ hkeys hch)
  intro a ha b hb hk
  have hga := getChild_of_mem_nodup ch₁ a.1 a.2 hnd₁ (mem_sortEntries ch₁ a ha)
  have hgb := getChild_of_mem_nodup ch₂ b.1 b.2 hnd₂ (mem_sortEntries ch₂ b hb)
  rw [← hk] at hgb
  exact hch a.1 a.2 b.2 hga hgb

/-- The rendering of one entry row of `renderNode`, named for reasoning:
the body of the `map` in `renderNodeFuel`. -/
def renderRow (fuel len : Nat) (pre : String) (p : Nat × (String × JNode)) : String :=
  let isLast := p.1 == len - 1
  let connector := if isLast then "└── " else "├── "
  let childPrefix := if isLast then "    " else "│   "
  if !(nodeIsDir p.2.2) then
    pre ++ connector ++ p.2.1 ++ sizeSuffix p.2.2 ++ "\n"
  else
    pre ++ connector ++ p.2.1 ++ "/\n" ++ renderNodeFuel fuel p.2.2 (pre ++ childPrefix)

/-- `renderNodeFuel` at positive fuel, through the named row function. -/
theorem renderNodeFuel_succ (fuel : Nat) (n : JNode) (pre : String) :
    renderNodeFuel (fuel + 1) n pre =
      String.join ((List.enumFrom 0 (sortEntries n.children)).map
        (renderRow fuel (sortEntries n.children).length pre)) := rfl

/-- Rows of entrywise-related lists render identically, at any starting
index and fixed advertised length. -/
theorem renderRow_map_congr (fuel : Nat)
    (IH : ∀ (t₁ t₂ : JNode) (pre : String), NodeWF t₁ → NodeWF t₂ → NodeEquiv t₁ t₂ →
      renderNodeFuel fuel t₁ pre = renderNodeFuel fuel t₂ pre) :
    ∀ {l₁ l₂ : List (String × JNode)},
    List.Forall₂ (fun a b => a.1 = b.1 ∧ NodeEquiv a.2 b.2) l₁ l₂ →
    (∀ a, a ∈ l₁ → NodeWF a.2) → (∀ b, b ∈ l₂ → NodeWF b.2) →
    ∀ (n len : Nat) (pre : String),
    (List.enumFrom n l₁).map (renderRow fuel len pre) =
      (List.enumFrom n l₂).map (renderRow fuel len pre) := by
  intro l₁ l₂ hf
  induction hf with
  | nil =>
    intro hw₁ hw₂ n len pre
    rfl
  | cons hab htail ihl =>
    rename_i a b t₁ t₂
    intro hw₁ hw₂ n len pre
    rcases a with ⟨ka, va⟩
    rcases b with ⟨kb, vb⟩
    rcases hab with ⟨hk, he⟩
    simp only at hk
    subst hk
    simp only [List.enumFrom, List.map_cons, List.cons.injEq]
    constructor
    · unfold renderRow
      simp only
      rw [nodeEquiv_isDir he, nodeEquiv_sizeSuffix he,
        IH va vb (pre ++ if (n == len - 1) = true then "    " else "│   ")
          (hw₁ (ka, va) (List.mem_cons_self _ _)) (hw₂ (ka, vb) (List.mem_cons_self _ _)) he]
    · exact ihl (fun x hx => hw₁ x (List.mem_cons_of_mem _ hx))
        (fun y hy => hw₂ y (List.mem_cons_of_mem _ hy)) (n + 1) len pre

/-- Rendering respects the extensional equivalence of well-formed trees,
at every fuel. -/
theorem renderNodeFuel_congr : ∀ (fuel : Nat) (t₁ t₂ : JNode) (pre : String),
    NodeWF t₁ → NodeWF t₂ → NodeEquiv t₁ t₂ →
    renderNodeFuel fuel t₁ pre = renderNodeFuel fuel t₂ pre := by
  intro fuel
  induction fuel with
  | zero =>
    intro t₁ t₂ pre _ _ _
    rfl
  | succ fuel ih =>
    intro t₁ t₂ pre hw₁ hw₂ he
    cases he with
    | mk f₁ f₂ s₁ s₂ ch₁ ch₂ hf hs hkeys hch =>
      cases hw₁ with
      | mk _ _ _ hnd₁ hchw₁ =>
        cases hw₂ with
        | mk _ _ _ hnd₂ hchw₂ =>
          rw [renderNodeFuel_succ, renderNodeFuel_succ]
          have hf2 := sortEntries_forall2 ch₁ ch₂ hnd₁ hnd₂ hkeys hch
          have hlen : (sortEntries ch₁).length = (sortEntries ch₂).length := hf2.length_eq
          show String.join ((List.enumFrom 0 (sortEntries ch₁)).map
              (renderRow fuel (sortEntries ch₁).length pre)) =
            String.join ((List.enumFrom 0 (sortEntries ch₂)).map
              (renderRow fuel (sortEntries ch₂).length pre))
          rw [← hlen]
          refine congrArg String.join (renderRow_map_congr fuel ih hf2 ?_ ?_ 0
            (sortEntries ch₁).length pre)
          · intro a ha
            exact hchw₁ a.1 a.2 (getChild_of_mem_nodup ch₁ a.1 a.2 hnd₁ (mem_sortEntries ch₁ a ha))
          · intro b hb
            exact hchw₂ b.1 b.2 (getChild_of_mem_nodup ch₂ b.1 b.2 hnd₂ (mem_sortEntries ch₂ b hb))

instance (f g : GitFile) : Decidable (PathCompat f g) :=
  inferInstanceAs (Decidable (_ ∧ _))

/-- Permutation invariance of the renderer on overlap-free inputs: equal
fuel (the path-length sum is permutation invariant), equivalent built
trees, and render congruence. -/
theorem formatHierarchicalTree_perm (l₁ l₂ : List GitFile) (hp : l₁.Perm l₂)
    (hok : ∀ f ∈ l₁, "" ∉ splitSlash f.path) (hpair : l₁.Pairwise PathCompat) :
    formatHierarchicalTree l₁ = formatHierarchicalTree l₂ := by
  unfold formatHierarchicalTree
  have hfuel : treeFuel l₁ = treeFuel l₂ := by
    unfold treeFuel
    rw [(hp.map (fun f => f.path.length)).sum_eq]
  rw [hfuel]
  exact renderNodeFuel_congr (treeFuel l₂) (buildTree l₁) (buildTree l₂) ""
    (buildTree_wf l₁) (buildTree_wf l₂) (buildTree_perm l₁ l₂ hp hok hpair)

/-- C8 counterexample: the renderer is NOT invariant under every
permutation of the input array.  When one entry's path is a
segment-prefix of another's ("a" and "a/b.txt"), the later insertion
overwrites the node built by the earlier one, so the two input orders
render different texts. -/
theorem formatHierarchicalTree_not_perm_invariant :
    formatHierarchicalTree [{ path := "a", type := "dir" }, { path := "a/b.txt", size := some 3 }] ≠
      formatHierarchicalTree
        [{ path := "a/b.txt", size := some 3 }, { path := "a", type := "dir" }] := by
  decide

/-- C8: at every level the renderer emits the visible entries sorted by
the comparator placing directories before files and names in code-point
alphabetical order within each group; the rendered text is invariant
under permutation of the input array provided no path has an empty
segment and no path is a segment-prefix of another (the unrestricted
invariance is refuted separately); and the concrete level holding
directory "a" and file "b.txt" renders the directory first from either
input order. -/
theorem formatHierarchicalTree_spec (l₁ l₂ : List GitFile) (hp : l₁.Perm l₂)
    (hok : ∀ f ∈ l₁, "" ∉ splitSlash f.path) (hpair : l₁.Pairwise PathCompat) :
    formatHierarchicalTree l₁ = formatHierarchicalTree l₂ ∧
    (∀ ch : List (String × JNode), List.Pairwise EntryRel (sortEntries ch)) ∧
    formatHierarchicalTree [{ path := "a", type := "dir" }, { path := "b.txt", size := some 3 }] =
      "├── a/\n└── b.txt (3 bytes)\n" ∧
    formatHierarchicalTree [{ path := "b.txt", size := some 3 }, { path := "a", type := "dir" }] =
      "├── a/\n└── b.txt (3 bytes)\n" := by
  refine ⟨formatHierarchicalTree_perm l₁ l₂ hp hok hpair,
    fun ch => List.sorted_insertionSort EntryRel _, by decide, by decide⟩

/-- Witness for C8 at a two-element prefix-free input in both orders. -/
theorem formatHierarchicalTree_spec_witness :
    formatHierarchicalTree [{ path := "a", type := "dir" }, { path := "b.txt", size := some 3 }] =
      formatHierarchicalTree
        [{ path := "b.txt", size := some 3 }, { path := "a", type := "dir" }] ∧
    (∀ ch : List (String × JNode), List.Pairwise EntryRel (sortEntries ch)) ∧
    formatHierarchicalTree [{ path := "a", type := "dir" }, { path := "b.txt", size := some 3 }] =
      "├── a/\n└── b.txt (3 bytes)\n" ∧
    formatHierarchicalTree [{ path := "b.txt", size := some 3 }, { path := "a", type := "dir" }] =
      "├── a/\n└── b.txt (3 bytes)\n" :=
  formatHierarchicalTree_spec
    [{ path := "a", type := "dir" }, { path := "b.txt", size := some 3 }]
    [{ path := "b.txt", size := some 3 }, { path := "a", type := "dir" }]
    (List.Perm.swap _ _ _) (by decide) (by decide)
